import Mathlib

/-!
Shallow embedding of the SkipList package (`skiplist.go`).

Modelling conventions:
* The Go heap is an explicit arena `List Node`; a `*node` pointer is an index
  (`Nat`) into the arena, and the Go `nil` pointer is `none : Option Nat`.
* `interface{}` keys have dynamic type int, string, or something else; they are
  modelled by `Key` (`KOther` stands for any key of an unsupported dynamic
  type).  A nil `interface{}` is `none : Option Key`.
* Go runtime panics (out-of-range slice index) are modelled by `none` results:
  every operation that can panic returns an `Option`.
* `rand.Float64`-driven `randomLevel` is externalized: `Insert` receives the
  sampled level as an explicit argument (the sampler only ever produces values
  in `[1, 32]`, captured by `randomLevelRange`).
* Values (`interface{}` payloads, opaque to the structure) are modelled by `Nat`.
-/

/-- Dynamic type of an `interface{}` key: int, string, or unsupported. -/
inductive Key where
  | KInt : Int → Key
  | KStr : String → Key
  | KOther : Nat → Key
deriving DecidableEq

/-- The dynamic-type tag of a key (the result of the Go type switch). -/
inductive KType where
  | kInt
  | kStr
  | kOther
deriving DecidableEq

/-- Dynamic type tag of a key. -/
def Key.typeOf : Key → KType
  | .KInt _ => .kInt
  | .KStr _ => .kStr
  | .KOther _ => .kOther

/-- Lexicographic three-way comparison of character sequences by codepoint.
(Go compares strings byte-wise, and UTF-8 byte order coincides with codepoint
order, so this is Go `strings.Compare` on the decoded characters.) -/
def charsCmp : List Char → List Char → Int
  | [], [] => 0
  | [], _ :: _ => -1
  | _ :: _, [] => 1
  | a :: as, b :: bs =>
    if a.toNat < b.toNat then -1
    else if b.toNat < a.toNat then 1
    else charsCmp as bs

/-- Go `strings.Compare`: -1, 0, or 1 by lexicographic order. -/
def strCmp (a b : String) : Int := charsCmp a.data b.data

/-- Go `<` on strings (strict lexicographic order). -/
def strLt (a b : String) : Bool := strCmp a b < 0

/-- Core of `(*SkipList).compare`: the type switch on the first key, with the
type assertion on the second; any mismatched or unsupported pairing yields 0. -/
def cmpKey : Key → Key → Int
  | .KInt a, .KInt b => if a < b then -1 else if b < a then 1 else 0
  | .KInt _, _ => 0
  | .KStr a, .KStr b => strCmp a b
  | .KStr _, _ => 0
  | .KOther _, _ => 0

/-- `compareInt` from the source (dead code in the package, kept for fidelity). -/
def compareInt (a b : Option Key) : Int :=
  match a with
  | some (.KInt ka) =>
    match b with
    | some (.KInt kb) => if ka < kb then -1 else if kb < ka then 1 else 0
    | _ => 0
  | _ => 0

/-- `compareString` from the source (dead code in the package, kept for fidelity). -/
def compareString (a b : Option Key) : Int :=
  match a with
  | some (.KStr ka) =>
    match b with
    | some (.KStr kb) => strCmp ka kb
    | _ => 0
  | _ => 0

/-- Opaque payload type for values. -/
abbrev Val := Nat

/-- Shorthand for an `interface{}`-typed key value (possibly nil). -/
abbrev KeyOpt := Option Key

/-- Shorthand for an `interface{}`-typed payload value (possibly nil). -/
abbrev ValOpt := Option Val

/-- The Go `node` struct: key, value and the tower of forward pointers.
The sentinel head has `key = none`, `value = none`. -/
structure Node where
  key : Option Key
  value : Option Val
  forward : List (Option Nat)
deriving DecidableEq

/-- The Go `SkipList` struct, plus the explicit arena `heap` that the Go
runtime keeps implicit.  `headA` is the address of the sentinel head node. -/
structure SkipList where
  heap : List Node
  headA : Nat
  level : Nat
  length : Nat
  keyType : KType
deriving DecidableEq

/-- The Go `SkipListIterator` struct (the `list` field is passed explicitly). -/
structure SkipListIterator where
  node : Nat
  isHead : Bool
deriving DecidableEq

/-- `DefaultMaxLevel` from the source. -/
def DefaultMaxLevel : Nat := 48

/-- Errors returned by the Go API. -/
inductive SLErr where
  | nilKey
  | notFound
deriving DecidableEq

/-- `NewSkipList`: empty list, head with a single (nil) forward slot, level 1. -/
def NewSkipList (kt : KType) : SkipList :=
  { heap := [{ key := none, value := none, forward := [none] }]
    headA := 0
    level := 1
    length := 0
    keyType := kt }

/-- The contract of `randomLevel`: the sampled level is in `[1, 32]`. -/
def randomLevelRange (lvl : Nat) : Prop := 1 ≤ lvl ∧ lvl ≤ 32

namespace SkipList

/-- `(*SkipList).compare` on `interface{}` keys: a nil key falls into the
default branch (0); otherwise the type switch of `cmpKey` decides. -/
def compare (_s : SkipList) (a b : Option Key) : Int :=
  match a, b with
  | some ka, some kb => cmpKey ka kb
  | _, _ => 0

/-- Dereference `cur.forward[i]`: `none` is a Go panic (invalid node address or
out-of-range index), `some p` is the pointer read (`p = none` is Go `nil`). -/
def readFwd (s : SkipList) (cur : Nat) (i : Nat) : Option (Option Nat) :=
  (s.heap[cur]?).bind fun n => n.forward[i]?

/-- The inner loop of the top-down traversal at level `i`:
`for current.forward[i] != nil && s.compare(current.forward[i].key, key) < 0`.
`fuel` bounds the number of steps (a Go loop on an acyclic chain terminates;
`none` means the walk could not finish or a read panicked). -/
def advance (s : SkipList) (i : Nat) (key : Option Key) : Nat → Nat → Option Nat
  | 0, _ => none
  | fuel + 1, cur =>
    match readFwd s cur i with
    | none => none
    | some none => some cur
    | some (some nxt) =>
      match s.heap[nxt]? with
      | none => none
      | some nn =>
        if s.compare nn.key key < 0 then advance s i key fuel nxt else some cur

/-- The outer loop `for i := s.level - 1; i >= 0; i--` of `Insert`/`Delete`,
recording the update vector: the returned list `upd` has `upd[i] =` the last
node visited at level `i`, and the returned address is the final `current`. -/
def descend (s : SkipList) (key : Option Key) : Nat → Nat → Option (Nat × List Nat)
  | 0, cur => some (cur, [])
  | i + 1, cur =>
    match advance s i key (s.heap.length + 1) cur with
    | none => none
    | some c =>
      match descend s key i c with
      | none => none
      | some (fin, upd) => some (fin, upd ++ [c])

/-- The outer traversal loop of `Search` (no update vector is recorded). -/
def descendS (s : SkipList) (key : Option Key) : Nat → Nat → Option Nat
  | 0, cur => some cur
  | i + 1, cur =>
    match advance s i key (s.heap.length + 1) cur with
    | none => none
    | some c => descendS s key i c

/-- The loop `for i := s.level; i < level; i++ { update[i] = s.head }` of
`Insert`; `count` is the remaining iteration count (`level - i`).  Writing
`update[i]` with `i ≥ len(update)` is an out-of-range panic (`none`). -/
def growUpdate (hA : Nat) : Nat → Nat → List Nat → Option (List Nat)
  | 0, _, upd => some upd
  | count + 1, i, upd =>
    if i < upd.length then growUpdate hA count (i + 1) (upd.set i hA) else none

/-- The splice loop of `Insert`:
`for i := 0; i < level; i++ { newNode.forward[i] = update[i].forward[i];
update[i].forward[i] = newNode }`; `count` is the remaining iteration count. -/
def spliceLoop (upd : List Nat) (newA : Nat) : Nat → Nat → List Node → Option (List Node)
  | 0, _, heap => some heap
  | count + 1, i, heap =>
    match upd[i]? with
    | none => none
    | some pred =>
      match heap[pred]? with
      | none => none
      | some predN =>
        match predN.forward[i]? with
        | none => none
        | some old =>
          match heap[newA]? with
          | none => none
          | some newN =>
            let heap1 := heap.set newA { newN with forward := newN.forward.set i old }
            match heap1[pred]? with
            | none => none
            | some predN1 =>
              let heap2 := heap1.set pred
                { predN1 with forward := predN1.forward.set i (some newA) }
              spliceLoop upd newA count (i + 1) heap2

/-- The new-node branch of `Insert`: sample-driven level growth (which writes
past the end of the update vector whenever `lvl > s.level`), allocation of the
new node, and the splice loop. -/
def insertNew (s : SkipList) (lvl : Nat) (key : Option Key) (v : Val)
    (upd : List Nat) : Option (SkipList × Option SLErr) :=
  let step : Option (List Nat × Nat) :=
    if lvl > s.level then
      (growUpdate s.headA (lvl - s.level) s.level upd).map fun u => (u, lvl)
    else some (upd, s.level)
  match step with
  | none => none
  | some (upd1, newLevel) =>
    let newA := s.heap.length
    let heap0 := s.heap ++ [{ key := key, value := some v,
                              forward := List.replicate lvl none }]
    match spliceLoop upd1 newA lvl 0 heap0 with
    | none => none
    | some heap1 =>
      some ({ s with heap := heap1, level := newLevel, length := s.length + 1 }, none)

/-- `(*SkipList).Insert`, with the `randomLevel()` sample passed as `lvl`.
Returns `none` on a Go panic, otherwise the updated list and the error value. -/
def Insert (s : SkipList) (lvl : Nat) (key : Option Key) (v : Val) :
    Option (SkipList × Option SLErr) :=
  match key with
  | none => some (s, some SLErr.nilKey)
  | some _ =>
    match descend s key s.level s.headA with
    | none => none
    | some (fin, upd) =>
      match readFwd s fin 0 with
      | none => none
      | some cur =>
        match cur with
        | some c =>
          match s.heap[c]? with
          | none => none
          | some cn =>
            if s.compare cn.key key = 0 then
              some ({ s with heap := s.heap.set c { cn with value := some v } }, none)
            else insertNew s lvl key v upd
        | none => insertNew s lvl key v upd

/-- `(*SkipList).Search`; `none` is a Go panic, `some` carries the Go
`(interface{}, error)` result pair. -/
def Search (s : SkipList) (key : Option Key) : Option (ValOpt × Option SLErr) :=
  match key with
  | none => some (none, some SLErr.nilKey)
  | some _ =>
    match descendS s key s.level s.headA with
    | none => none
    | some fin =>
      match readFwd s fin 0 with
      | none => none
      | some none => some (none, some SLErr.notFound)
      | some (some c) =>
        match s.heap[c]? with
        | none => none
        | some cn =>
          if s.compare cn.key key = 0 then some (cn.value, none)
          else some (none, some SLErr.notFound)

/-- The unlink loop of `Delete`:
`for i := 0; i < s.level; i++ { if update[i].forward[i] != current { break };
update[i].forward[i] = current.forward[i] }`; `count` counts iterations left. -/
def unlinkLoop (upd : List Nat) (tgt : Nat) : Nat → Nat → List Node → Option (List Node)
  | 0, _, heap => some heap
  | count + 1, i, heap =>
    match upd[i]? with
    | none => none
    | some pred =>
      match heap[pred]? with
      | none => none
      | some predN =>
        match predN.forward[i]? with
        | none => none
        | some pf =>
          if pf = some tgt then
            match heap[tgt]? with
            | none => none
            | some tgtN =>
              match tgtN.forward[i]? with
              | none => none
              | some tf =>
                unlinkLoop upd tgt count (i + 1)
                  (heap.set pred { predN with forward := predN.forward.set i tf })
          else some heap

/-- The level-shrink loop of `Delete`:
`for s.level > 1 && s.head.forward[s.level-1] == nil { s.level-- }`. -/
def shrinkLevel (heap : List Node) (hA : Nat) : Nat → Option Nat
  | 0 => some 0
  | 1 => some 1
  | l + 2 =>
    match (heap[hA]?).bind fun n => n.forward[l + 1]? with
    | none => none
    | some none => shrinkLevel heap hA (l + 1)
    | some (some _) => some (l + 2)

/-- `(*SkipList).Delete`.  Returns `none` on a Go panic, otherwise the updated
list and the error value. -/
def Delete (s : SkipList) (key : Option Key) : Option (SkipList × Option SLErr) :=
  match key with
  | none => some (s, some SLErr.nilKey)
  | some _ =>
    match descend s key s.level s.headA with
    | none => none
    | some (fin, upd) =>
      match readFwd s fin 0 with
      | none => none
      | some cur =>
        match cur with
        | some c =>
          match s.heap[c]? with
          | none => none
          | some cn =>
            if s.compare cn.key key = 0 then
              match unlinkLoop upd c s.level 0 s.heap with
              | none => none
              | some heap1 =>
                match shrinkLevel heap1 s.headA s.level with
                | none => none
                | some lvl1 =>
                  some ({ s with heap := heap1, level := lvl1, length := s.length - 1 }, none)
            else some (s, some SLErr.notFound)
        | none => some (s, some SLErr.notFound)

/-- `(*SkipList).Length`. -/
def Length (s : SkipList) : Nat := s.length

/-- `(*SkipList).Iterator`. -/
def Iterator (s : SkipList) : SkipListIterator :=
  { node := s.headA, isHead := true }

/-- `(*SkipList).Clear`: reset the head's forward array to `DefaultMaxLevel`
nil slots, level 1, length 0 (old nodes become unreachable garbage). -/
def Clear (s : SkipList) : SkipList :=
  match s.heap[s.headA]? with
  | none => s
  | some hd =>
    { s with
      heap := s.heap.set s.headA { hd with forward := List.replicate DefaultMaxLevel none }
      level := 1
      length := 0 }

end SkipList

namespace SkipListIterator

/-- `(*SkipListIterator).Next` (list passed explicitly): advance along the
bottom chain, returning the new iterator and the Go boolean. -/
def Next (s : SkipList) (it : SkipListIterator) : Option (SkipListIterator × Bool) :=
  match s.readFwd it.node 0 with
  | none => none
  | some none => some (it, false)
  | some (some nxt) => some ({ node := nxt, isHead := false }, true)

/-- `(*SkipListIterator).Key`: nil while at head, else the current node's key.
The outer `Option` is a Go panic (invalid address). -/
def Key (s : SkipList) (it : SkipListIterator) : Option KeyOpt :=
  if it.isHead then some none else (s.heap[it.node]?).map Node.key

/-- `(*SkipListIterator).Value`: nil while at head, else the current node's
value.  The outer `Option` is a Go panic (invalid address). -/
def Value (s : SkipList) (it : SkipListIterator) : Option ValOpt :=
  if it.isHead then some none else (s.heap[it.node]?).map Node.value

end SkipListIterator

namespace SkipList

/-- A full iteration from a fresh cursor: repeatedly call `Next`, and after
each call that returns true record `Key()` of the cursor.  The resulting list
has one element per `Next()` call that returned true. -/
def iterateFrom (s : SkipList) : Nat → SkipListIterator → Option (List KeyOpt)
  | 0, _ => none
  | fuel + 1, it =>
    match it.Next s with
    | none => none
    | some (_, false) => some []
    | some (it1, true) =>
      match it1.Key s with
      | none => none
      | some k => (iterateFrom s fuel it1).map fun ks => k :: ks

/-- Keys yielded by a full iteration from `Iterator()`. -/
def iterate (s : SkipList) : Option (List KeyOpt) :=
  iterateFrom s (s.heap.length + 1) s.Iterator

/-- The loop of `MinString`: scan the bottom chain accumulating the smallest
string key seen, with the empty string doubling as the "nothing yet" marker. -/
def minStringLoop (s : SkipList) : Nat → Option Nat → String → Option String
  | 0, _, _ => none
  | _ + 1, none, acc => some acc
  | fuel + 1, some c, acc =>
    match s.heap[c]? with
    | none => none
    | some n =>
      let acc1 := match n.key with
        | some (Key.KStr str) => if acc = "" ∨ strLt str acc = true then str else acc
        | _ => acc
      match n.forward[0]? with
      | none => none
      | some nxt => minStringLoop s fuel nxt acc1

/-- `(*SkipList).MinString`. -/
def MinString (s : SkipList) : Option (String × Bool) :=
  if s.length = 0 then some ("", false)
  else
    match s.readFwd s.headA 0 with
    | none => none
    | some p =>
      (minStringLoop s (s.heap.length + 1) p "").map fun mk =>
        if mk ≠ "" then (mk, true) else ("", false)

/-- The loop of `MaxString` (as `minStringLoop`, with `>`). -/
def maxStringLoop (s : SkipList) : Nat → Option Nat → String → Option String
  | 0, _, _ => none
  | _ + 1, none, acc => some acc
  | fuel + 1, some c, acc =>
    match s.heap[c]? with
    | none => none
    | some n =>
      let acc1 := match n.key with
        | some (Key.KStr str) => if acc = "" ∨ strLt acc str = true then str else acc
        | _ => acc
      match n.forward[0]? with
      | none => none
      | some nxt => maxStringLoop s fuel nxt acc1

/-- `(*SkipList).MaxString`. -/
def MaxString (s : SkipList) : Option (String × Bool) :=
  if s.length = 0 then some ("", false)
  else
    match s.readFwd s.headA 0 with
    | none => none
    | some p =>
      (maxStringLoop s (s.heap.length + 1) p "").map fun mk =>
        if mk ≠ "" then (mk, true) else ("", false)

/-- The inner loop of `MaxInt` at level `i`:
`for current.forward[i] != nil && current.forward[i] != s.head`. -/
def runToEnd (s : SkipList) (i : Nat) : Nat → Nat → Option Nat
  | 0, _ => none
  | fuel + 1, cur =>
    match s.readFwd cur i with
    | none => none
    | some none => some cur
    | some (some nxt) =>
      if nxt = s.headA then some cur else runToEnd s i fuel nxt

/-- The outer (level-descending) loop of `MaxInt`. -/
def descendEnd (s : SkipList) : Nat → Nat → Option Nat
  | 0, cur => some cur
  | i + 1, cur =>
    match runToEnd s i (s.heap.length + 1) cur with
    | none => none
    | some c => descendEnd s i c

/-- `(*SkipList).MaxInt`: descend to the last node and type-assert its key. -/
def MaxInt (s : SkipList) : Option (Int × Bool) :=
  if s.length = 0 then some (0, false)
  else
    match descendEnd s s.level s.headA with
    | none => none
    | some fin =>
      (s.heap[fin]?).map fun n =>
        match n.key with
        | some (Key.KInt m) => (m, true)
        | _ => (0, false)

/-- The loop of `MinInt`: scan the bottom chain and return the first int key. -/
def minIntLoop (s : SkipList) : Nat → Option Nat → Option (Int × Bool)
  | 0, _ => none
  | _ + 1, none => some (0, false)
  | fuel + 1, some c =>
    if c = s.headA then some (0, false)
    else
      match s.heap[c]? with
      | none => none
      | some n =>
        match n.key with
        | some (Key.KInt m) => some (m, true)
        | _ =>
          match n.forward[0]? with
          | none => none
          | some nxt => minIntLoop s fuel nxt

/-- `(*SkipList).MinInt`. -/
def MinInt (s : SkipList) : Option (Int × Bool) :=
  if s.length = 0 then some (0, false)
  else
    match s.readFwd s.headA 0 with
    | none => none
    | some p => minIntLoop s (s.heap.length + 1) p

end SkipList

/-- `compareKeysOrValues` from the source: the boolean "less" used by
`sort.Slice`; only int/int and string/string pairs are ordered. -/
def compareKeysOrValues (a b : KeyOpt) : Bool :=
  match a, b with
  | some (Key.KInt ia), some (Key.KInt ib) => ia < ib
  | some (Key.KStr sa), some (Key.KStr sb) => strLt sa sb
  | _, _ => false

/-- One insertion step of the comparison sort modelling Go's `sort.Slice`. -/
def insertSorted (less : KeyOpt → KeyOpt → Bool) (x : KeyOpt) : List KeyOpt → List KeyOpt
  | [] => [x]
  | y :: ys => if less y x then y :: insertSorted less x ys else x :: y :: ys

/-- Model of Go's `sort.Slice`: a comparison sort for the given `less`.  On a
slice whose elements are strictly totally ordered by `less` (the only case the
claims are about) every comparison sort produces the same, unique output. -/
def sortSlice (less : KeyOpt → KeyOpt → Bool) (l : List KeyOpt) : List KeyOpt :=
  l.foldr (insertSorted less) []

namespace SkipList

/-- The collection loop of `SortByKey`: gather the keys along the bottom chain. -/
def collectKeys (s : SkipList) : Nat → Option Nat → Option (List KeyOpt)
  | 0, _ => none
  | _ + 1, none => some []
  | fuel + 1, some c =>
    match s.heap[c]? with
    | none => none
    | some n =>
      match n.forward[0]? with
      | none => none
      | some nxt => (collectKeys s fuel nxt).map fun ks => n.key :: ks

/-- `(*SkipList).SortByKey`. -/
def SortByKey (s : SkipList) (reverse : Bool) : Option (List KeyOpt) :=
  if s.length = 0 then some []
  else
    match s.readFwd s.headA 0 with
    | none => none
    | some p =>
      (collectKeys s (s.heap.length + 1) p).map fun ks =>
        if reverse then sortSlice (fun a b => compareKeysOrValues b a) ks
        else sortSlice compareKeysOrValues ks

/-- The walk collecting the keys linked at level `i` (used to state the
per-level ordering invariant).  `none` when level `i` does not exist or the
walk cannot complete. -/
def keysAtLevelFrom (s : SkipList) (i : Nat) : Nat → Option Nat → Option (List Key)
  | 0, _ => none
  | _ + 1, none => some []
  | fuel + 1, some c =>
    match s.heap[c]? with
    | none => none
    | some n =>
      match n.key with
      | none => none
      | some k =>
        match n.forward[i]? with
        | none => none
        | some nxt => (keysAtLevelFrom s i fuel nxt).map fun ks => k :: ks

/-- Keys linked at level `i`, scanning from `head.forward[i]`. -/
def keysAtLevel (s : SkipList) (i : Nat) : Option (List Key) :=
  match s.readFwd s.headA i with
  | none => none
  | some p => keysAtLevelFrom s i (s.heap.length + 1) p

end SkipList

/-- One API call: an insert (with its sampled level), a delete, or a clear. -/
inductive Op where
  | ins (lvl : Nat) (k : Key) (v : Val)
  | del (k : Key)
  | clr
deriving DecidableEq

/-- Run one API call, keeping only the resulting state (`none` = Go panic). -/
def runOp (s : SkipList) : Op → Option SkipList
  | .ins lvl k v => (s.Insert lvl (some k) v).map Prod.fst
  | .del k => (s.Delete (some k)).map Prod.fst
  | .clr => some s.Clear

/-- Run a sequence of API calls. -/
def runOps (s : SkipList) : List Op → Option SkipList
  | [] => some s
  | o :: os =>
    match runOp s o with
    | none => none
    | some s1 => runOps s1 os

/-- Well-formed call sequence for key type `kt`: every key has the type fixed
at construction and every sampled insert level is one `randomLevel` can return. -/
def opsWellFormed (kt : KType) (ops : List Op) : Prop :=
  ∀ o ∈ ops,
    match o with
    | .ins lvl k _ => randomLevelRange lvl ∧ k.typeOf = kt
    | .del k => k.typeOf = kt
    | .clr => True

/-- Abstract view of one live node: its address, key and value. -/
structure Entry where
  addr : Nat
  key : Key
  value : Val
deriving DecidableEq

/-- `Seg heap hA p q es`: starting from pointer `p`, the heap links exactly the
nodes listed in `es` (in order, each of height 1, none of them the head) and
the last one's forward pointer is `q`. -/
inductive Seg (heap : List Node) (hA : Nat) : Option Nat → Option Nat → List Entry → Prop
  | nil (q : Option Nat) : Seg heap hA q q []
  | cons (e : Entry) (fw q : Option Nat) (rest : List Entry)
      (hne : e.addr ≠ hA)
      (hget : heap[e.addr]? = some { key := some e.key, value := some e.value, forward := [fw] })
      (htail : Seg heap hA fw q rest) :
      Seg heap hA (some e.addr) q (e :: rest)

/-- Strict ascending order of consecutive entries under the Go comparator. -/
def entLt (a b : Entry) : Prop := cmpKey a.key b.key < 0

instance : DecidableRel entLt := fun a b => by unfold entLt; infer_instance

/-- Representation invariant, with the abstract entry list made explicit:
level is 1, the head is a valid node whose slot 0 starts the (sorted) bottom
chain of height-1 nodes and whose higher slots are all nil, and `length`
matches the number of live nodes. -/
structure InvWith (s : SkipList) (es : List Entry) : Prop where
  level_eq : s.level = 1
  head_node : ∃ hd, s.heap[s.headA]? = some hd ∧
    (∃ p, hd.forward[0]? = some p ∧ Seg s.heap s.headA p none es) ∧
    (∀ o ∈ hd.forward.drop 1, o = none)
  length_eq : s.length = es.length
  sorted : List.Chain' entLt es

/-- Representation invariant of a reachable skip list. -/
def SkipList.Inv (s : SkipList) : Prop := ∃ es, InvWith s es

/-- The int keys among the live nodes, in bottom-chain order. -/
def intKeys (es : List Entry) : List Int :=
  es.filterMap fun e =>
    match e.key with
    | Key.KInt n => some n
    | _ => none

/-- Result of a full bottom-level scan for the minimum int key, per the spec's
description of `MinInt` ("the true minimum integer key among live nodes,
considering only nodes whose key is an int"). -/
def minIntScanSpec (es : List Entry) : Int × Bool :=
  match intKeys es with
  | [] => (0, false)
  | x :: xs => (xs.foldl min x, true)

/-- Result of a full bottom-level scan for the maximum int key, per the spec's
description of `MaxInt`. -/
def maxIntScanSpec (es : List Entry) : Int × Bool :=
  match intKeys es with
  | [] => (0, false)
  | x :: xs => (xs.foldl max x, true)

/-- Natess of the first entry of a chain suffix (`none` when empty):
the pointer value that reaches this suffix. -/
def headPtr : List Entry → Option Nat
  | [] => none
  | e :: _ => some e.addr

/-- Entries whose key compares strictly below `k` (the traversal's skip test). -/
def ltKeyB (k : Key) (e : Entry) : Bool := decide (cmpKey e.key k < 0)

/-- All entries carry keys of dynamic type `t`. -/
def allType (t : KType) (es : List Entry) : Prop := ∀ e ∈ es, e.key.typeOf = t

/-- Concrete list holding the single int key 1 (value 10), built by the API. -/
def cexIntList : SkipList :=
  (runOps (NewSkipList KType.kInt) [Op.ins 1 (Key.KInt 1) 10]).getD (NewSkipList KType.kInt)

/-- Concrete list holding string keys "" (value 1) and "a" (value 2), built by
the API. -/
def cexStrList : SkipList :=
  (runOps (NewSkipList KType.kStr)
    [Op.ins 1 (Key.KStr "") 1, Op.ins 1 (Key.KStr "a") 2]).getD (NewSkipList KType.kStr)

/-- Concrete list holding only the empty-string key, built by the API. -/
def cexStrSingleton : SkipList :=
  (runOps (NewSkipList KType.kStr) [Op.ins 1 (Key.KStr "") 1]).getD (NewSkipList KType.kStr)

/-- The address where the bottom-level traversal for key `k` stops: the last
node whose key compares strictly below `k`, or the start node if none does. -/
def predAddr (s : SkipList) (es : List Entry) (k : Key) : Nat :=
  ((es.takeWhile (ltKeyB k)).map Entry.addr).getLastD s.headA

/-! ## Comparator lemmas -/

theorem charsCmp_self : ∀ l : List Char, charsCmp l l = 0
  | [] => rfl
  | a :: as => by simp [charsCmp, charsCmp_self as]

theorem charsCmp_neg : ∀ a b : List Char, charsCmp a b = -(charsCmp b a)
  | [], [] => rfl
  | [], _ :: _ => rfl
  | _ :: _, [] => rfl
  | a :: as, b :: bs => by
    simp only [charsCmp]
    rcases Nat.lt_trichotomy a.toNat b.toNat with h | h | h
    · simp [h, Nat.lt_asymm h]
    · simp [h, Nat.lt_irrefl, charsCmp_neg as bs]
    · simp [h, Nat.lt_asymm h]

theorem charsCmp_eq_zero_iff : ∀ a b : List Char, charsCmp a b = 0 ↔ a = b
  | [], [] => by simp [charsCmp]
  | [], _ :: _ => by simp [charsCmp]
  | _ :: _, [] => by simp [charsCmp]
  | a :: as, b :: bs => by
    simp only [charsCmp]
    rcases Nat.lt_trichotomy a.toNat b.toNat with h | h | h
    · rw [if_pos h]
      constructor
      · intro hc; exact absurd hc (by decide)
      · intro hc; injection hc with h1 h2; subst h1; omega
    · have hab : a = b := by
        have h2 : a.val.toNat = b.val.toNat := h
        exact Char.ext (UInt32.eq_of_val_eq (Fin.ext h2))
      subst hab
      rw [if_neg (Nat.lt_irrefl _), if_neg (Nat.lt_irrefl _), charsCmp_eq_zero_iff as bs]
      constructor
      · intro hc; rw [hc]
      · intro hc; injection hc
    · rw [if_neg (Nat.lt_asymm h), if_pos h]
      constructor
      · intro hc; exact absurd hc (by decide)
      · intro hc; injection hc with h1 h2; subst h1; omega

theorem charsCmp_lt_trans : ∀ a b c : List Char,
    charsCmp a b < 0 → charsCmp b c < 0 → charsCmp a c < 0
  | [], [], _, hab, _ => by simp [charsCmp] at hab
  | [], _ :: _, [], _, hbc => by simp [charsCmp] at hbc
  | [], _ :: _, _ :: _, _, _ => by simp [charsCmp]
  | _ :: _, [], _, hab, _ => by simp [charsCmp] at hab
  | _ :: _, _ :: _, [], _, hbc => by simp [charsCmp] at hbc
  | a :: as, b :: bs, c :: cs, hab, hbc => by
    simp only [charsCmp] at hab hbc ⊢
    rcases Nat.lt_trichotomy a.toNat b.toNat with h1 | h1 | h1
    · rcases Nat.lt_trichotomy b.toNat c.toNat with h2 | h2 | h2
      · rw [if_pos (Nat.lt_trans h1 h2)]; decide
      · rw [if_pos (by omega : a.toNat < c.toNat)]; decide
      · rw [if_neg (Nat.lt_asymm h2), if_pos h2] at hbc; omega
    · rw [if_neg (by omega), if_neg (by omega)] at hab
      rcases Nat.lt_trichotomy b.toNat c.toNat with h2 | h2 | h2
      · rw [if_pos (by omega : a.toNat < c.toNat)]; decide
      · rw [if_neg (by omega), if_neg (by omega)] at hbc
        rw [if_neg (by omega), if_neg (by omega)]
        exact charsCmp_lt_trans as bs cs hab hbc
      · rw [if_neg (Nat.lt_asymm h2), if_pos h2] at hbc; omega
    · rw [if_neg (Nat.lt_asymm h1), if_pos h1] at hab; omega

theorem String.data_injective : ∀ a b : String, a.data = b.data → a = b := by
  intro a b h
  exact congrArg String.mk h

theorem strCmp_self (a : String) : strCmp a a = 0 := charsCmp_self a.data

theorem strCmp_neg (a b : String) : strCmp a b = -(strCmp b a) := charsCmp_neg a.data b.data

theorem strCmp_eq_zero_iff (a b : String) : strCmp a b = 0 ↔ a = b := by
  unfold strCmp
  rw [charsCmp_eq_zero_iff]
  exact ⟨String.data_injective a b, fun h => by rw [h]⟩

theorem strCmp_lt_trans {a b c : String} (hab : strCmp a b < 0) (hbc : strCmp b c < 0) :
    strCmp a c < 0 :=
  charsCmp_lt_trans a.data b.data c.data hab hbc

theorem cmpKey_int_lt_iff (a b : Int) : cmpKey (.KInt a) (.KInt b) < 0 ↔ a < b := by
  simp only [cmpKey]
  split_ifs with h1 h2
  · exact ⟨fun _ => h1, fun _ => by decide⟩
  · exact ⟨fun hc => absurd hc (by decide), fun hc => absurd hc h1⟩
  · exact ⟨fun hc => absurd hc (by decide), fun hc => absurd hc h1⟩

theorem cmpKey_int_eq_zero_iff (a b : Int) : cmpKey (.KInt a) (.KInt b) = 0 ↔ a = b := by
  simp only [cmpKey]
  split_ifs with h1 h2
  · exact ⟨fun hc => absurd hc (by decide), fun hc => by omega⟩
  · exact ⟨fun hc => absurd hc (by decide), fun hc => by omega⟩
  · exact ⟨fun _ => by omega, fun _ => rfl⟩

theorem cmpKey_self (k : Key) : cmpKey k k = 0 := by
  cases k with
  | KInt a => simp [cmpKey]
  | KStr a => simpa [cmpKey] using strCmp_self a
  | KOther t => simp [cmpKey]

theorem cmpKey_neg : ∀ a b : Key, cmpKey a b = -(cmpKey b a) := by
  intro a b
  cases a <;> cases b <;> simp only [cmpKey] <;>
    first
    | omega
    | (split_ifs <;> omega)
    | exact strCmp_neg _ _

theorem cmpKey_lt_trans : ∀ {a b c : Key}, cmpKey a b < 0 → cmpKey b c < 0 → cmpKey a c < 0 := by
  intro a b c hab hbc
  cases a <;> cases b <;> simp only [cmpKey] at hab <;> try omega
  · cases c <;> simp only [cmpKey] at hbc ⊢ <;> omega
  · cases c <;> simp only [cmpKey] at hbc ⊢
    · omega
    · exact strCmp_lt_trans hab hbc
    · omega

theorem cmpKey_lt_same_type : ∀ {a b : Key}, cmpKey a b < 0 → a.typeOf = b.typeOf := by
  intro a b h
  cases a <;> cases b <;> simp only [cmpKey] at h <;> first | rfl | omega

theorem cmpKey_lt_not_other : ∀ {a b : Key}, cmpKey a b < 0 → a.typeOf ≠ KType.kOther := by
  intro a b h
  cases a <;> cases b <;> simp only [cmpKey] at h <;> simp [Key.typeOf] <;> omega

theorem cmpKey_mismatch : ∀ {a b : Key}, a.typeOf ≠ b.typeOf → cmpKey a b = 0 := by
  intro a b h
  cases a <;> cases b <;> simp [Key.typeOf] at h ⊢ <;> simp [cmpKey]

theorem cmpKey_other_left : ∀ {a : Key}, a.typeOf = KType.kOther → ∀ b, cmpKey a b = 0 := by
  intro a h b
  cases a <;> simp [Key.typeOf] at h ⊢ <;> simp [cmpKey]

theorem cmpKey_eq_zero_iff_same : ∀ {a b : Key}, a.typeOf = b.typeOf →
    a.typeOf ≠ KType.kOther → (cmpKey a b = 0 ↔ a = b) := by
  intro a b hty hno
  cases a <;> cases b <;> simp [Key.typeOf] at hty hno ⊢
  · simpa using cmpKey_int_eq_zero_iff _ _
  · simpa [cmpKey] using strCmp_eq_zero_iff _ _

/-! ## Chain segment lemmas -/

theorem chain'_pairwise_entLt {es : List Entry} (h : List.Chain' entLt es) :
    List.Pairwise entLt es := by
  haveI : IsTrans Entry entLt := ⟨fun _ _ _ hab hbc => cmpKey_lt_trans hab hbc⟩
  exact List.chain'_iff_pairwise.mp h

theorem seg_nil_eq {heap : List Node} {hA : Nat} {p q : Option Nat}
    (h : Seg heap hA p q []) : p = q := by cases h; rfl

theorem seg_cons_elim {heap : List Node} {hA : Nat} {p q : Option Nat} {e : Entry}
    {rest : List Entry} (h : Seg heap hA p q (e :: rest)) :
    p = some e.addr ∧ e.addr ≠ hA ∧ ∃ fw,
      heap[e.addr]? = some { key := some e.key, value := some e.value, forward := [fw] } ∧
      Seg heap hA fw q rest := by
  cases h with
  | cons _ fw _ _ hne hget htail => exact ⟨rfl, hne, fw, hget, htail⟩

theorem seg_append_iff {heap : List Node} {hA : Nat} (es1 : List Entry) :
    ∀ {p q : Option Nat} (es2 : List Entry),
      Seg heap hA p q (es1 ++ es2) ↔ ∃ r, Seg heap hA p r es1 ∧ Seg heap hA r q es2 := by
  induction es1 with
  | nil =>
    intro p q es2
    constructor
    · intro h; exact ⟨p, Seg.nil p, h⟩
    · rintro ⟨r, h1, h2⟩; rw [seg_nil_eq h1]; exact h2
  | cons e rest ih =>
    intro p q es2
    constructor
    · intro h
      cases h with
      | cons _ fw _ _ hne hget htail =>
        obtain ⟨r, hr1, hr2⟩ := (ih es2).mp htail
        exact ⟨r, Seg.cons e fw r rest hne hget hr1, hr2⟩
    · rintro ⟨r, h1, h2⟩
      cases h1 with
      | cons _ fw _ _ hne hget htail =>
        exact Seg.cons e fw q (rest ++ es2) hne hget ((ih es2).mpr ⟨r, htail, h2⟩)

theorem seg_mem {heap : List Node} {hA : Nat} {p q : Option Nat} {es : List Entry}
    (h : Seg heap hA p q es) :
    ∀ e ∈ es, e.addr ≠ hA ∧ ∃ fw, heap[e.addr]? =
      some { key := some e.key, value := some e.value, forward := [fw] } := by
  induction h with
  | nil q' => intro e he; cases he
  | cons e' fw q' rest hne hget htail ih =>
    intro e he
    rcases List.mem_cons.mp he with rfl | hmem
    · exact ⟨hne, fw, hget⟩
    · exact ih e hmem

theorem seg_addr_lt_length {heap : List Node} {hA : Nat} {p q : Option Nat}
    {es : List Entry} (h : Seg heap hA p q es) {e : Entry} (he : e ∈ es) :
    e.addr < heap.length := by
  obtain ⟨-, fw, hget⟩ := seg_mem h e he
  rcases Nat.lt_or_ge e.addr heap.length with hlt | hge
  · exact hlt
  · rw [List.getElem?_eq_none hge] at hget
    exact Option.noConfusion hget

theorem seg_set_frame {heap : List Node} {hA a : Nat} {n : Node} {p q : Option Nat}
    {es : List Entry} (h : Seg heap hA p q es) (hall : ∀ e ∈ es, e.addr ≠ a) :
    Seg (heap.set a n) hA p q es := by
  induction h with
  | nil q' => exact Seg.nil q'
  | cons e fw q' rest hne hget htail ih =>
    refine Seg.cons e fw q' rest hne ?_
      (ih fun x hx => hall x (List.mem_cons_of_mem _ hx))
    rw [List.getElem?_set_ne (Ne.symm (hall e (List.mem_cons_self _ _)))]
    exact hget

theorem seg_append_frame {heap : List Node} {hA : Nat} (l2 : List Node)
    {p q : Option Nat} {es : List Entry} (h : Seg heap hA p q es) :
    Seg (heap ++ l2) hA p q es := by
  induction h with
  | nil q' => exact Seg.nil q'
  | cons e fw q' rest hne hget htail ih =>
    refine Seg.cons e fw q' rest hne ?_ ih
    have hlt : e.addr < heap.length := by
      rcases Nat.lt_or_ge e.addr heap.length with hlt | hge
      · exact hlt
      · rw [List.getElem?_eq_none hge] at hget
        exact Option.noConfusion hget
    rw [List.getElem?_append_left hlt]
    exact hget

theorem seg_set_last {heap : List Node} {hA : Nat} (q' : Option Nat) :
    ∀ (pre : List Entry) (e : Entry) {p q : Option Nat},
      Seg heap hA p q (pre ++ [e]) →
      (∀ x ∈ pre, x.addr ≠ e.addr) →
      Seg (heap.set e.addr { key := some e.key, value := some e.value, forward := [q'] })
        hA p q' (pre ++ [e]) := by
  intro pre
  induction pre with
  | nil =>
    intro e p q h _
    cases h with
    | cons _ fw _ _ hne hget htail =>
      have hlt : e.addr < heap.length := by
        rcases Nat.lt_or_ge e.addr heap.length with hlt | hge
        · exact hlt
        · rw [List.getElem?_eq_none hge] at hget
          exact Option.noConfusion hget
      refine Seg.cons e q' q' [] hne ?_ (Seg.nil q')
      rw [List.getElem?_set_self hlt]
  | cons x pre ih =>
    intro e p q h hall
    cases h with
    | cons _ fw _ _ hne hget htail =>
      refine Seg.cons x fw q' (pre ++ [e]) hne ?_
        (ih e htail fun y hy => hall y (List.mem_cons_of_mem _ hy))
      rw [List.getElem?_set_ne (Ne.symm (hall x (List.mem_cons_self _ _)))]
      exact hget

theorem seg_pairwise_addr_ne {heap : List Node} {hA : Nat} {p q : Option Nat}
    {es : List Entry} (h : Seg heap hA p q es) (hs : List.Chain' entLt es) :
    List.Pairwise (fun a b : Entry => a.addr ≠ b.addr) es := by
  have hp := chain'_pairwise_entLt hs
  refine hp.imp_of_mem ?_
  intro a b ha hb hab hc
  obtain ⟨-, fwa, hga⟩ := seg_mem h a ha
  obtain ⟨-, fwb, hgb⟩ := seg_mem h b hb
  rw [hc] at hga
  rw [hga] at hgb
  injection hgb with hnode
  injection hnode with hk hv hf
  injection hk with hk2
  have hlt : cmpKey a.key b.key < 0 := hab
  rw [hk2, cmpKey_self] at hlt
  exact absurd hlt (lt_irrefl 0)

/-! ## Traversal characterization -/

theorem dropWhile_head_not {α : Type} (p : α → Bool) :
    ∀ (l : List α) (x : α) (xs : List α), l.dropWhile p = x :: xs → p x = false := by
  intro l
  induction l with
  | nil => intro x xs h; exact absurd h (by simp [List.dropWhile])
  | cons a as ih =>
    intro x xs h
    rw [List.dropWhile_cons] at h
    by_cases hp : p a = true
    · rw [if_pos hp] at h; exact ih x xs h
    · rw [if_neg hp] at h
      injection h with h1 h2
      subst h1
      exact Bool.eq_false_iff.mpr hp

theorem seg_length_le {heap : List Node} {hA : Nat} {p q : Option Nat} {es : List Entry}
    (h : Seg heap hA p q es) (hs : List.Chain' entLt es) : es.length ≤ heap.length := by
  have hnd : (es.map Entry.addr).Nodup :=
    List.pairwise_map.mpr (seg_pairwise_addr_ne h hs)
  have hsub : es.map Entry.addr ⊆ List.range heap.length := by
    intro a ha
    rw [List.mem_map] at ha
    obtain ⟨e, he, rfl⟩ := ha
    rw [List.mem_range]
    exact seg_addr_lt_length h he
  have h2 := List.subperm_of_subset hnd hsub
  simpa using h2.length_le

theorem advance_spec (s : SkipList) (k : Key) :
    ∀ (es : List Entry) (fuel : Nat) (cur : Nat) (p : Option Nat),
      es.length < fuel →
      s.readFwd cur 0 = some p →
      Seg s.heap s.headA p none es →
      SkipList.advance s 0 (some k) fuel cur =
        some (((es.takeWhile (ltKeyB k)).map Entry.addr).getLastD cur) := by
  intro es
  induction es with
  | nil =>
    intro fuel cur p hfuel hrf hseg
    cases fuel with
    | zero => exact absurd hfuel (Nat.not_lt_zero _)
    | succ fuel =>
      rw [seg_nil_eq hseg] at hrf
      simp [SkipList.advance, hrf, List.takeWhile]
  | cons e rest ih =>
    intro fuel cur p hfuel hrf hseg
    cases hseg with
    | cons _ fw _ _ hne hget htail =>
      cases fuel with
      | zero => exact absurd hfuel (Nat.not_lt_zero _)
      | succ fuel =>
        have hrf2 : s.readFwd e.addr 0 = some fw := by
          simp [SkipList.readFwd, hget]
        by_cases hlt : cmpKey e.key k < 0
        · have hih := ih fuel e.addr fw
            (by simpa using Nat.lt_of_succ_lt_succ hfuel) hrf2 htail
          have htake : (e :: rest).takeWhile (ltKeyB k) =
              e :: rest.takeWhile (ltKeyB k) := by
            simp [List.takeWhile_cons, ltKeyB, hlt]
          rw [htake]
          simp only [List.map_cons, List.getLastD_cons]
          rw [← hih]
          simp [SkipList.advance, hrf, hget, SkipList.compare, hlt]
        · have htake : (e :: rest).takeWhile (ltKeyB k) = [] := by
            simp [List.takeWhile_cons, ltKeyB, hlt]
          rw [htake]
          simp [SkipList.advance, hrf, hget, SkipList.compare, hlt]

theorem pred_fwd_spec (s : SkipList) :
    ∀ (pre : List Entry) (cur : Nat) (p q : Option Nat),
      s.readFwd cur 0 = some p →
      Seg s.heap s.headA p q pre →
      s.readFwd ((pre.map Entry.addr).getLastD cur) 0 = some q := by
  intro pre
  induction pre with
  | nil =>
    intro cur p q hrf hseg
    rw [seg_nil_eq hseg] at hrf
    simpa using hrf
  | cons e rest ih =>
    intro cur p q hrf hseg
    cases hseg with
    | cons _ fw _ _ hne hget htail =>
      have hrf2 : s.readFwd e.addr 0 = some fw := by
        simp [SkipList.readFwd, hget]
      have hih := ih e.addr fw q hrf2 htail
      rw [List.map_cons, List.getLastD_cons]
      exact hih

theorem descend_one (s : SkipList) (key : Option Key) (cur : Nat) :
    SkipList.descend s key 1 cur =
      (SkipList.advance s 0 key (s.heap.length + 1) cur).map fun c => (c, [c]) := by
  cases h : SkipList.advance s 0 key (s.heap.length + 1) cur with
  | none => simp [SkipList.descend, h]
  | some c => simp [SkipList.descend, h]

theorem descendS_one (s : SkipList) (key : Option Key) (cur : Nat) :
    SkipList.descendS s key 1 cur = SkipList.advance s 0 key (s.heap.length + 1) cur := by
  cases h : SkipList.advance s 0 key (s.heap.length + 1) cur with
  | none => simp [SkipList.descendS, h]
  | some c => simp [SkipList.descendS, h]

theorem inv_descend {s : SkipList} {es : List Entry} (hinv : InvWith s es) (k : Key) :
    SkipList.descend s (some k) s.level s.headA = some (predAddr s es k, [predAddr s es k]) ∧
    SkipList.descendS s (some k) s.level s.headA = some (predAddr s es k) := by
  obtain ⟨hd, hhd, ⟨p, hp, hseg⟩, hhi⟩ := hinv.head_node
  have hfuel : es.length < s.heap.length + 1 :=
    Nat.lt_succ_of_le (seg_length_le hseg hinv.sorted)
  have hrf : s.readFwd s.headA 0 = some p := by
    unfold SkipList.readFwd
    rw [hhd]
    simpa using hp
  have hadv := advance_spec s k es (s.heap.length + 1) s.headA p hfuel hrf hseg
  rw [hinv.level_eq]
  refine ⟨?_, ?_⟩
  · rw [descend_one, hadv]; rfl
  · rw [descendS_one, hadv]; rfl

theorem inv_split {s : SkipList} {es : List Entry} (hinv : InvWith s es) (k : Key) :
    ∃ hd p, s.heap[s.headA]? = some hd ∧ hd.forward[0]? = some p ∧
      (∀ o ∈ hd.forward.drop 1, o = none) ∧
      Seg s.heap s.headA p (headPtr (es.dropWhile (ltKeyB k))) (es.takeWhile (ltKeyB k)) ∧
      Seg s.heap s.headA (headPtr (es.dropWhile (ltKeyB k))) none (es.dropWhile (ltKeyB k)) := by
  obtain ⟨hd, hhd, ⟨p, hp, hseg⟩, hhi⟩ := hinv.head_node
  have hsplit : Seg s.heap s.headA p none
      (es.takeWhile (ltKeyB k) ++ es.dropWhile (ltKeyB k)) := by
    rw [List.takeWhile_append_dropWhile]; exact hseg
  obtain ⟨r, hpre, hrest⟩ := (seg_append_iff _ _).mp hsplit
  have hr : r = headPtr (es.dropWhile (ltKeyB k)) := by
    cases hdrop : es.dropWhile (ltKeyB k) with
    | nil =>
      rw [hdrop] at hrest
      rw [seg_nil_eq hrest]
      rfl
    | cons e rtail =>
      rw [hdrop] at hrest
      cases hrest with
      | cons _ fw _ _ hne hget htail => rfl
  rw [hr] at hpre hrest
  exact ⟨hd, p, hhd, hp, hhi, hpre, hrest⟩

theorem inv_pred_fwd {s : SkipList} {es : List Entry} (hinv : InvWith s es) (k : Key) :
    s.readFwd (predAddr s es k) 0 = some (headPtr (es.dropWhile (ltKeyB k))) := by
  obtain ⟨hd, p, hhd, hp, hhi, hpre, hrest⟩ := inv_split hinv k
  have hrf : s.readFwd s.headA 0 = some p := by
    unfold SkipList.readFwd
    rw [hhd]
    simpa using hp
  exact pred_fwd_spec s (es.takeWhile (ltKeyB k)) s.headA p _ hrf hpre

/-! ## Operation characterizations under the invariant -/

theorem Search_spec {s : SkipList} {es : List Entry} (hinv : InvWith s es) (k : Key) :
    s.Search (some k) =
      some (match es.dropWhile (ltKeyB k) with
        | [] => (none, some SLErr.notFound)
        | e :: _ =>
          if cmpKey e.key k = 0 then (some e.value, none)
          else (none, some SLErr.notFound)) := by
  obtain ⟨-, hdescS⟩ := inv_descend hinv k
  have hrfp := inv_pred_fwd hinv k
  obtain ⟨hd, p, hhd, hp, hhi, hpre, hrest⟩ := inv_split hinv k
  unfold SkipList.Search
  rw [hdescS]
  simp only
  rw [hrfp]
  cases hdrop : es.dropWhile (ltKeyB k) with
  | nil => simp [headPtr]
  | cons e rtail =>
    rw [hdrop] at hrest
    obtain ⟨-, hne, fw, hget, htail⟩ := seg_cons_elim hrest
    simp only [headPtr]
    rw [hget]
    simp only [SkipList.compare]
    split_ifs <;> rfl

theorem Insert_upsert {s : SkipList} {es : List Entry} (hinv : InvWith s es) {k : Key}
    {e0 : Entry} {rtail : List Entry}
    (hdrop : es.dropWhile (ltKeyB k) = e0 :: rtail)
    (heq : cmpKey e0.key k = 0) (lvl : Nat) (v : Val) :
    ∃ s1, s.Insert lvl (some k) v = some (s1, none) ∧
      InvWith s1 (es.takeWhile (ltKeyB k) ++ { e0 with value := v } :: rtail) ∧
      s1.heap.length = s.heap.length ∧ s1.length = s.length ∧ s1.level = s.level ∧
      s1.headA = s.headA ∧ s1.keyType = s.keyType := by
  obtain ⟨hdesc, -⟩ := inv_descend hinv k
  have hrfp := inv_pred_fwd hinv k
  obtain ⟨hd, p, hhd, hp, hhi, hpre, hrest⟩ := inv_split hinv k
  rw [hdrop] at hrest hrfp hpre
  obtain ⟨-, hne0, fw, hget0, htail⟩ := seg_cons_elim hrest
  have hcat : es.takeWhile (ltKeyB k) ++ e0 :: rtail = es := by
    rw [← hdrop, List.takeWhile_append_dropWhile]
  have hins : s.Insert lvl (some k) v = some ({ s with heap := s.heap.set e0.addr { key := some e0.key, value := some v, forward := [fw] } }, none) := by
    unfold SkipList.Insert
    rw [hdesc]
    simp only
    rw [hrfp]
    simp only [headPtr]
    rw [hget0]
    simp only [SkipList.compare]
    rw [if_pos heq]
  have hsegfull : Seg s.heap s.headA p none es := by
    rw [← hcat]
    exact (seg_append_iff _ _).mpr ⟨_, hpre, hrest⟩
  have hpw := seg_pairwise_addr_ne hsegfull hinv.sorted
  have hpw2 : List.Pairwise (fun a b : Entry => a.addr ≠ b.addr)
      (es.takeWhile (ltKeyB k) ++ e0 :: rtail) := by rw [hcat]; exact hpw
  rw [List.pairwise_append] at hpw2
  have hprene : ∀ x ∈ es.takeWhile (ltKeyB k), x.addr ≠ e0.addr :=
    fun x hx => hpw2.2.2 x hx e0 (List.mem_cons_self _ _)
  have hrtne : ∀ x ∈ rtail, x.addr ≠ e0.addr := by
    intro x hx
    exact Ne.symm ((List.pairwise_cons.mp hpw2.2.1).1 x hx)
  refine ⟨_, hins, ⟨hinv.level_eq, ?_, ?_, ?_⟩, by simp, rfl, rfl, rfl, rfl⟩
  · refine ⟨hd, ?_, ⟨p, hp, ?_⟩, hhi⟩
    · rw [List.getElem?_set_ne hne0]
      exact hhd
    · refine (seg_append_iff _ _).mpr ⟨some e0.addr, seg_set_frame hpre hprene, ?_⟩
      have hlt0 : e0.addr < s.heap.length := by
        rcases Nat.lt_or_ge e0.addr s.heap.length with hlt | hge
        · exact hlt
        · rw [List.getElem?_eq_none hge] at hget0
          exact Option.noConfusion hget0
      exact Seg.cons { e0 with value := v } fw none rtail hne0
        (by rw [List.getElem?_set_self hlt0])
        (seg_set_frame htail hrtne)
  · show s.length = _
    have h1 := congrArg List.length hcat
    simp only [List.length_append, List.length_cons] at h1 ⊢
    rw [hinv.length_eq]
    omega
  · have hs := hinv.sorted
    rw [← hcat] at hs
    rw [List.chain'_append] at hs ⊢
    refine ⟨hs.1, ?_, ?_⟩
    · rw [List.chain'_cons'] at hs ⊢
      exact ⟨fun y hy => hs.2.1.1 y hy, hs.2.1.2⟩
    · intro x hx y hy
      simp only [List.head?_cons, Option.mem_def, Option.some.injEq] at hy
      subst hy
      exact hs.2.2 x hx e0 (by simp)

theorem set_zero_drop_one {α : Type} (l : List α) (a : α) :
    (l.set 0 a).drop 1 = l.drop 1 := by cases l <;> simp

theorem mem_of_getLast?_eq {α : Type} {l : List α} {a : α} (h : l.getLast? = some a) :
    a ∈ l := by
  have h2 : a ∈ l.getLast? := h
  obtain ⟨hne, rfl⟩ := List.mem_getLast?_eq_getLast h2
  exact List.getLast_mem hne

theorem mem_of_mem_takeWhile {α : Type} {p : α → Bool} {l : List α} {x : α}
    (h : x ∈ l.takeWhile p) : x ∈ l :=
  List.Sublist.subset (List.takeWhile_sublist p) h

theorem inv_seg {s : SkipList} {es : List Entry} (hinv : InvWith s es) :
    ∃ hd p, s.heap[s.headA]? = some hd ∧ hd.forward[0]? = some p ∧
      Seg s.heap s.headA p none es ∧ s.headA < s.heap.length := by
  obtain ⟨hd, hhd, ⟨p, hp, hseg⟩, -⟩ := hinv.head_node
  refine ⟨hd, p, hhd, hp, hseg, ?_⟩
  rcases Nat.lt_or_ge s.headA s.heap.length with hlt | hge
  · exact hlt
  · rw [List.getElem?_eq_none hge] at hhd
    exact Option.noConfusion hhd

theorem predAddr_cases (s : SkipList) (es : List Entry) (k : Key) :
    (es.takeWhile (ltKeyB k) = [] ∧ predAddr s es k = s.headA) ∨
    (∃ pre1 eL, es.takeWhile (ltKeyB k) = pre1 ++ [eL] ∧ predAddr s es k = eL.addr ∧
      eL ∈ es.takeWhile (ltKeyB k)) := by
  rcases List.eq_nil_or_concat (es.takeWhile (ltKeyB k)) with hnil | ⟨pre1, eL, hc⟩
  · left
    exact ⟨hnil, by rw [predAddr, hnil]; rfl⟩
  · right
    rw [List.concat_eq_append] at hc
    refine ⟨pre1, eL, hc, ?_, by rw [hc]; simp⟩
    rw [predAddr, hc, List.map_append]
    simp [List.getLastD_concat]

theorem predAddr_lt {s : SkipList} {es : List Entry} (hinv : InvWith s es) (k : Key) :
    predAddr s es k < s.heap.length := by
  obtain ⟨hd, p, hhd, hp, hseg, hhA⟩ := inv_seg hinv
  rcases predAddr_cases s es k with ⟨-, hpa⟩ | ⟨pre1, eL, hc, hpa, hmem⟩
  · rw [hpa]; exact hhA
  · rw [hpa]
    exact seg_addr_lt_length hseg (mem_of_mem_takeWhile hmem)

theorem chain'_insert_mid {pre rest : List Entry} {newE : Entry}
    (hc : List.Chain' entLt (pre ++ rest))
    (hpre : ∀ x ∈ pre, entLt x newE)
    (hrest : ∀ y ∈ rest.head?, entLt newE y) :
    List.Chain' entLt (pre ++ newE :: rest) := by
  rw [List.chain'_append] at hc ⊢
  refine ⟨hc.1, ?_, ?_⟩
  · rw [List.chain'_cons']
    exact ⟨hrest, hc.2.1⟩
  · intro x hx y hy
    simp only [List.head?_cons, Option.mem_def, Option.some.injEq] at hy
    subst hy
    exact hpre x (mem_of_getLast?_eq hx)

theorem insertNew_one {s : SkipList} (hlv : s.level = 1) {pa : Nat} {mid : Option Nat}
    {predN : Node} (hpredN : s.heap[pa]? = some predN)
    (hpfw : predN.forward[0]? = some mid) (hpa : pa < s.heap.length)
    (k : Key) (v : Val) :
    SkipList.insertNew s 1 (some k) v [pa] =
      some ({ s with
        heap := (s.heap ++ [({ key := some k, value := some v, forward := [mid] } : Node)]).set pa { predN with forward := predN.forward.set 0 (some s.heap.length) },
        level := 1, length := s.length + 1 }, none) := by
  have h1 : (s.heap ++ [({ key := some k, value := some v, forward := [none] } : Node)])[pa]? = some predN := by
    rw [List.getElem?_append_left hpa]
    exact hpredN
  have h2 : (s.heap ++ [({ key := some k, value := some v, forward := [none] } : Node)])[s.heap.length]? = some ({ key := some k, value := some v, forward := [none] } : Node) :=
    List.getElem?_concat_length _ _
  have h3 : ((s.heap ++ [({ key := some k, value := some v, forward := [none] } : Node)]).set s.heap.length ({ key := some k, value := some v, forward := [mid] } : Node))[pa]? = some predN := by
    rw [List.getElem?_set_ne (Nat.ne_of_gt hpa), List.getElem?_append_left hpa]
    exact hpredN
  unfold SkipList.insertNew
  rw [hlv]
  norm_num
  simp only [SkipList.spliceLoop, List.getElem?_cons_zero, h1, hpfw, h2, h3, List.set]
  simp [List.set_append]

theorem Insert_new {s : SkipList} {es : List Entry} (hinv : InvWith s es) {k : Key} (v : Val)
    (hno : ∀ e0 ∈ (es.dropWhile (ltKeyB k)).head?, cmpKey e0.key k ≠ 0) :
    ∃ s1, s.Insert 1 (some k) v = some (s1, none) ∧
      InvWith s1 (es.takeWhile (ltKeyB k) ++
        ({ addr := s.heap.length, key := k, value := v } : Entry) :: es.dropWhile (ltKeyB k)) ∧
      s1.heap.length = s.heap.length + 1 ∧ s1.length = s.length + 1 ∧ s1.level = 1 ∧
      s1.headA = s.headA ∧ s1.keyType = s.keyType := by
  obtain ⟨hdesc, -⟩ := inv_descend hinv k
  have hrfp := inv_pred_fwd hinv k
  obtain ⟨hd, p, hhd, hp, hhi, hpre, hrest⟩ := inv_split hinv k
  obtain ⟨predN, hpredN, hpfw⟩ : ∃ n, s.heap[predAddr s es k]? = some n ∧
      n.forward[0]? = some (headPtr (es.dropWhile (ltKeyB k))) := by
    have h := hrfp
    unfold SkipList.readFwd at h
    exact Option.bind_eq_some.mp h
  have hpa := predAddr_lt hinv k
  have hins1 := insertNew_one hinv.level_eq hpredN hpfw hpa k v
  have hins : s.Insert 1 (some k) v = SkipList.insertNew s 1 (some k) v [predAddr s es k] := by
    unfold SkipList.Insert
    rw [hdesc]
    simp only
    rw [hrfp]
    cases hdr : es.dropWhile (ltKeyB k) with
    | nil => simp [headPtr]
    | cons e0 rt =>
      have hrest1 := hrest
      rw [hdr] at hrest1
      obtain ⟨-, -, fw0, hget0, -⟩ := seg_cons_elim hrest1
      simp only [headPtr]
      rw [hget0]
      simp only [SkipList.compare]
      rw [if_neg (hno e0 (by rw [hdr]; rfl))]
  rw [hins1] at hins
  have hcat : es.takeWhile (ltKeyB k) ++ es.dropWhile (ltKeyB k) = es :=
    List.takeWhile_append_dropWhile _ _
  have hsegfull : Seg s.heap s.headA p none es := by
    rw [← hcat]
    exact (seg_append_iff _ _).mpr ⟨_, hpre, hrest⟩
  have hpw := seg_pairwise_addr_ne hsegfull hinv.sorted
  have hhA : s.headA < s.heap.length := by
    rcases Nat.lt_or_ge s.headA s.heap.length with h | h
    · exact h
    · rw [List.getElem?_eq_none h] at hhd
      exact Option.noConfusion hhd
  have heslt : ∀ e ∈ es, e.addr < s.heap.length := fun e he => seg_addr_lt_length hsegfull he
  have hrsub : ∀ x ∈ es.dropWhile (ltKeyB k), x ∈ es :=
    fun x hx => List.Sublist.subset (List.dropWhile_sublist _) hx
  have hrne : ∀ x ∈ es.dropWhile (ltKeyB k), x.addr ≠ s.heap.length :=
    fun x hx => Nat.ne_of_lt (heslt x (hrsub x hx))
  have hrneh : ∀ x ∈ es.dropWhile (ltKeyB k), x.addr ≠ s.headA :=
    fun x hx => (seg_mem hsegfull x (hrsub x hx)).1
  -- sortedness of the new chain
  have hsorted1 : List.Chain' entLt (es.takeWhile (ltKeyB k) ++
      ({ addr := s.heap.length, key := k, value := v } : Entry) :: es.dropWhile (ltKeyB k)) := by
    refine chain'_insert_mid (by rw [hcat]; exact hinv.sorted) ?_ ?_
    · intro x hx
      have := List.mem_takeWhile_imp hx
      simp only [ltKeyB, decide_eq_true_eq] at this
      exact this
    · intro y hy
      cases hdr : es.dropWhile (ltKeyB k) with
      | nil => rw [hdr] at hy; exact absurd hy (by simp)
      | cons e0 rt =>
        rw [hdr] at hy
        simp only [List.head?_cons, Option.mem_def, Option.some.injEq] at hy
        cases hy
        have hnotlt := dropWhile_head_not (ltKeyB k) es y rt hdr
        simp only [ltKeyB, decide_eq_false_iff_not, not_lt] at hnotlt
        have hnz : cmpKey y.key k ≠ 0 := hno y (by rw [hdr]; rfl)
        have hpos : 0 < cmpKey y.key k := by
          rcases lt_or_eq_of_le hnotlt with h | h
          · exact h
          · exact absurd h.symm hnz
        show cmpKey k y.key < 0
        rw [cmpKey_neg]
        omega
  have hlen1 := congrArg List.length hcat
  refine ⟨_, hins, ⟨rfl, ?_, ?_, hsorted1⟩, by simp, by simp [SkipList.length, hinv.length_eq], rfl, rfl, rfl⟩
  swap
  · -- length of new chain
    show s.length + 1 = _
    simp only [List.length_append, List.length_cons] at hlen1 ⊢
    rw [hinv.length_eq]
    omega
  -- head_node for the new state
  rcases predAddr_cases s es k with ⟨htake, hpaeq⟩ | ⟨pre1, eL, htake, hpaeq, hmemL⟩
  · -- the predecessor is the head itself
    rw [hpaeq] at hpredN ⊢
    have hphd : predN = hd := by
      rw [hpredN] at hhd
      exact Option.some.inj hhd
    subst hphd
    have hfl : 0 < predN.forward.length := by
      rcases Nat.lt_or_ge 0 predN.forward.length with h | h
      · exact h
      · exfalso
        have h0 : predN.forward[(0 : Nat)]? = none := List.getElem?_eq_none h
        rw [h0] at hp
        exact Option.noConfusion hp
    have hb1 : s.headA < (s.heap ++
        [({ key := some k, value := some v, forward := [headPtr (es.dropWhile (ltKeyB k))] } : Node)]).length := by
      simp only [List.length_append, List.length_cons, List.length_nil]
      omega
    have hb2 : 0 < (predN.forward.set 0 (some s.heap.length)).length := by
      simpa using hfl
    refine ⟨_, List.getElem?_set_self hb1, ⟨some s.heap.length, ?_, ?_⟩, ?_⟩
    · show (predN.forward.set 0 (some s.heap.length))[0]? = some (some s.heap.length)
      rw [List.getElem?_set_self (by simpa using hfl)]
    · -- the new chain from the head
      rw [htake]
      simp only [List.nil_append]
      refine Seg.cons ({ addr := s.heap.length, key := k, value := v } : Entry)
        (headPtr (es.dropWhile (ltKeyB k))) none (es.dropWhile (ltKeyB k))
        (Nat.ne_of_gt hhA) ?_ ?_
      · rw [List.getElem?_set_ne (Nat.ne_of_lt hhA), List.getElem?_concat_length]
      · have h1 : Seg (s.heap ++
            [({ key := some k, value := some v, forward := [headPtr (es.dropWhile (ltKeyB k))] } : Node)])
            s.headA (headPtr (es.dropWhile (ltKeyB k))) none (es.dropWhile (ltKeyB k)) :=
          seg_append_frame _ hrest
        exact seg_set_frame h1 hrneh
    · intro o ho
      rw [set_zero_drop_one] at ho
      exact hhi o ho
  · -- the predecessor is the last entry below k
    rw [hpaeq] at hpredN ⊢
    have hmemes : eL ∈ es := mem_of_mem_takeWhile hmemL
    have hLne : eL.addr ≠ s.headA := (seg_mem hsegfull eL hmemes).1
    have hLlt : eL.addr < s.heap.length := heslt eL hmemes
    have hpw2 : List.Pairwise (fun a b : Entry => a.addr ≠ b.addr)
        (es.takeWhile (ltKeyB k) ++ es.dropWhile (ltKeyB k)) := by
      rw [hcat]; exact hpw
    rw [List.pairwise_append] at hpw2
    have hcross : ∀ x ∈ es.dropWhile (ltKeyB k), x.addr ≠ eL.addr :=
      fun x hx => Ne.symm (hpw2.2.2 eL hmemL x hx)
    have hpwtake := hpw2.1
    rw [htake, List.pairwise_append] at hpwtake
    have hpre1ne : ∀ x ∈ pre1, x.addr ≠ eL.addr :=
      fun x hx => hpwtake.2.2 x hx eL (List.mem_singleton_self _)
    -- node shape of the predecessor
    have hpre1 := hpre
    rw [htake] at hpre1
    obtain ⟨r1, hpre1a, hLastSeg⟩ := (seg_append_iff _ _).mp hpre1
    obtain ⟨hr1, -, fwL, hgetL, hnilL⟩ := seg_cons_elim hLastSeg
    have hfwL : fwL = headPtr (es.dropWhile (ltKeyB k)) := seg_nil_eq hnilL
    subst hfwL
    have hphd : predN = { key := some eL.key, value := some eL.value, forward := [headPtr (es.dropWhile (ltKeyB k))] } := by
      rw [hpredN] at hgetL
      exact Option.some.inj hgetL
    subst hphd
    refine ⟨hd, ?_, ⟨p, hp, ?_⟩, hhi⟩
    · rw [List.getElem?_set_ne hLne, List.getElem?_append_left hhA]
      exact hhd
    · -- rebuild the chain: pre (ending at the new node), new node, rest
      rw [htake]
      refine (seg_append_iff _ _).mpr ⟨some s.heap.length, ?_, ?_⟩
      · have hf1 : Seg (s.heap ++ [({ key := some k, value := some v, forward := [headPtr (es.dropWhile (ltKeyB k))] } : Node)]) s.headA p (headPtr (es.dropWhile (ltKeyB k))) (pre1 ++ [eL]) := by
          refine seg_append_frame _ ?_
          rw [← htake]
          exact hpre
        exact seg_set_last (some s.heap.length) pre1 eL hf1 hpre1ne
      · refine Seg.cons ({ addr := s.heap.length, key := k, value := v } : Entry)
          (headPtr (es.dropWhile (ltKeyB k))) none (es.dropWhile (ltKeyB k))
          (Nat.ne_of_gt hhA) ?_ ?_
        · rw [List.getElem?_set_ne (Nat.ne_of_lt hLlt), List.getElem?_concat_length]
        · have f1 : Seg (s.heap ++ [({ key := some k, value := some v, forward := [headPtr (es.dropWhile (ltKeyB k))] } : Node)]) s.headA (headPtr (es.dropWhile (ltKeyB k))) none (es.dropWhile (ltKeyB k)) := seg_append_frame _ hrest
          exact seg_set_frame f1 hcross

theorem Insert_panic {s : SkipList} {es : List Entry} (hinv : InvWith s es) {k : Key} (v : Val)
    (hno : ∀ e0 ∈ (es.dropWhile (ltKeyB k)).head?, cmpKey e0.key k ≠ 0)
    {lvl : Nat} (hlvl : 2 ≤ lvl) :
    s.Insert lvl (some k) v = none := by
  obtain ⟨hdesc, -⟩ := inv_descend hinv k
  have hrfp := inv_pred_fwd hinv k
  obtain ⟨hd, p, hhd, hp, hhi, hpre, hrest⟩ := inv_split hinv k
  have hins : s.Insert lvl (some k) v =
      SkipList.insertNew s lvl (some k) v [predAddr s es k] := by
    unfold SkipList.Insert
    rw [hdesc]
    simp only
    rw [hrfp]
    cases hdr : es.dropWhile (ltKeyB k) with
    | nil => simp [headPtr]
    | cons e0 rt =>
      have hrest1 := hrest
      rw [hdr] at hrest1
      obtain ⟨-, -, fw0, hget0, -⟩ := seg_cons_elim hrest1
      simp only [headPtr]
      rw [hget0]
      simp only [SkipList.compare]
      rw [if_neg (hno e0 (by rw [hdr]; rfl))]
  rw [hins]
  unfold SkipList.insertNew
  rw [hinv.level_eq]
  have hgrow : SkipList.growUpdate s.headA (lvl - 1) 1 [predAddr s es k] = none := by
    obtain ⟨c, hc⟩ : ∃ c, lvl - 1 = c + 1 := ⟨lvl - 2, by omega⟩
    rw [hc]
    unfold SkipList.growUpdate
    simp
  have hgt : 1 < lvl := hlvl
  simp [hgt, hgrow]

theorem Delete_notfound {s : SkipList} {es : List Entry} (hinv : InvWith s es) {k : Key}
    (hno : ∀ e0 ∈ (es.dropWhile (ltKeyB k)).head?, cmpKey e0.key k ≠ 0) :
    s.Delete (some k) = some (s, some SLErr.notFound) := by
  obtain ⟨hdesc, -⟩ := inv_descend hinv k
  have hrfp := inv_pred_fwd hinv k
  obtain ⟨hd, p, hhd, hp, hhi, hpre, hrest⟩ := inv_split hinv k
  unfold SkipList.Delete
  rw [hdesc]
  simp only
  rw [hrfp]
  cases hdr : es.dropWhile (ltKeyB k) with
  | nil => simp [headPtr]
  | cons e0 rt =>
    have hrest1 := hrest
    rw [hdr] at hrest1
    obtain ⟨-, -, fw0, hget0, -⟩ := seg_cons_elim hrest1
    simp only [headPtr]
    rw [hget0]
    simp only [SkipList.compare]
    rw [if_neg (hno e0 (by rw [hdr]; rfl))]

theorem chain'_remove_mid {pre rest : List Entry} {e0 : Entry}
    (hc : List.Chain' entLt (pre ++ e0 :: rest)) : List.Chain' entLt (pre ++ rest) := by
  rw [List.chain'_append] at hc ⊢
  refine ⟨hc.1, (List.chain'_cons'.mp hc.2.1).2, ?_⟩
  intro x hx y hy
  have h1 := hc.2.2 x hx e0 (by simp)
  have h2 := (List.chain'_cons'.mp hc.2.1).1 y hy
  exact cmpKey_lt_trans h1 h2

theorem unlink_one {s : SkipList} (hlv : s.level = 1) {pa tgt : Nat} {predN tgtN : Node}
    (hpredN : s.heap[pa]? = some predN) (hpf : predN.forward[0]? = some (some tgt))
    (htgtN : s.heap[tgt]? = some tgtN) {tf : Option Nat} (htf : tgtN.forward[0]? = some tf) :
    SkipList.unlinkLoop [pa] tgt s.level 0 s.heap =
      some (s.heap.set pa { predN with forward := predN.forward.set 0 tf }) := by
  rw [hlv]
  unfold SkipList.unlinkLoop
  simp only [List.getElem?_cons_zero, hpredN, hpf, htgtN, htf, if_true]
  unfold SkipList.unlinkLoop
  rfl

theorem Delete_found {s : SkipList} {es : List Entry} (hinv : InvWith s es) {k : Key}
    {e0 : Entry} {rtail : List Entry}
    (hdrop : es.dropWhile (ltKeyB k) = e0 :: rtail)
    (heq : cmpKey e0.key k = 0) :
    ∃ s1, s.Delete (some k) = some (s1, none) ∧
      InvWith s1 (es.takeWhile (ltKeyB k) ++ rtail) ∧
      s1.length = s.length - 1 ∧ s1.level = 1 ∧ s1.headA = s.headA ∧
      s1.keyType = s.keyType ∧ s1.heap.length = s.heap.length := by
  obtain ⟨hdesc, -⟩ := inv_descend hinv k
  have hrfp := inv_pred_fwd hinv k
  obtain ⟨hd, p, hhd, hp, hhi, hpre, hrest⟩ := inv_split hinv k
  rw [hdrop] at hrest hrfp hpre
  obtain ⟨-, hne0, tf, hget0, htail⟩ := seg_cons_elim hrest
  obtain ⟨predN, hpredN, hpfw⟩ : ∃ n, s.heap[predAddr s es k]? = some n ∧
      n.forward[0]? = some (headPtr (e0 :: rtail)) := by
    have h := hrfp
    unfold SkipList.readFwd at h
    exact Option.bind_eq_some.mp h
  have htfclean : tf = headPtr rtail := by
    cases htail with
    | nil q => rfl
    | cons e fw q rest hne hget htail2 => rfl
  have htf0 : ({ key := some e0.key, value := some e0.value, forward := [tf] } : Node).forward[0]? = some tf := rfl
  have hunlink := unlink_one hinv.level_eq hpredN hpfw hget0 htf0
  have hdel : s.Delete (some k) = some ({ s with heap := s.heap.set (predAddr s es k) { predN with forward := predN.forward.set 0 tf }, level := 1, length := s.length - 1 }, none) := by
    unfold SkipList.Delete
    rw [hdesc]
    simp only
    rw [hrfp]
    simp only [headPtr]
    rw [hget0]
    simp only [SkipList.compare]
    rw [if_pos heq]
    have hshrink : SkipList.shrinkLevel (s.heap.set (predAddr s es k) { predN with forward := predN.forward.set 0 tf }) s.headA s.level = some 1 := by
      rw [hinv.level_eq]
      rfl
    simp only [hunlink, hshrink]
  have hcat : es.takeWhile (ltKeyB k) ++ e0 :: rtail = es := by
    rw [← hdrop, List.takeWhile_append_dropWhile]
  have hsegfull : Seg s.heap s.headA p none es := by
    rw [← hcat]
    exact (seg_append_iff _ _).mpr ⟨_, hpre, hrest⟩
  have hpw := seg_pairwise_addr_ne hsegfull hinv.sorted
  have hhA : s.headA < s.heap.length := by
    rcases Nat.lt_or_ge s.headA s.heap.length with h | h
    · exact h
    · rw [List.getElem?_eq_none h] at hhd
      exact Option.noConfusion hhd
  have hpw2 : List.Pairwise (fun a b : Entry => a.addr ≠ b.addr)
      (es.takeWhile (ltKeyB k) ++ e0 :: rtail) := by
    rw [hcat]; exact hpw
  rw [List.pairwise_append] at hpw2
  have hrtneh : ∀ x ∈ rtail, x.addr ≠ s.headA := fun x hx => (seg_mem htail x hx).1
  have hsorted1 : List.Chain' entLt (es.takeWhile (ltKeyB k) ++ rtail) :=
    chain'_remove_mid (by rw [hcat]; exact hinv.sorted)
  have hlencat := congrArg List.length hcat
  refine ⟨_, hdel, ⟨rfl, ?_, ?_, hsorted1⟩, rfl, rfl, rfl, rfl, by simp⟩
  swap
  · show s.length - 1 = _
    simp only [List.length_append, List.length_cons] at hlencat ⊢
    rw [hinv.length_eq]
    omega
  rcases predAddr_cases s es k with ⟨htake, hpaeq⟩ | ⟨pre1, eL, htake, hpaeq, hmemL⟩
  · -- predecessor is the head
    rw [hpaeq] at hpredN ⊢
    have hphd : predN = hd := by
      rw [hpredN] at hhd
      exact Option.some.inj hhd
    subst hphd
    have hfl : 0 < predN.forward.length := by
      rcases Nat.lt_or_ge 0 predN.forward.length with h | h
      · exact h
      · exfalso
        have h0 : predN.forward[(0 : Nat)]? = none := List.getElem?_eq_none h
        rw [h0] at hp
        exact Option.noConfusion hp
    refine ⟨_, List.getElem?_set_self hhA, ⟨tf, ?_, ?_⟩, ?_⟩
    · show (predN.forward.set 0 tf)[0]? = some tf
      rw [List.getElem?_set_self (by simpa using hfl)]
    · rw [htake]
      simp only [List.nil_append]
      exact seg_set_frame htail hrtneh
    · intro o ho
      rw [set_zero_drop_one] at ho
      exact hhi o ho
  · -- predecessor is the last entry below k
    rw [hpaeq] at hpredN ⊢
    have hmemes : eL ∈ es := mem_of_mem_takeWhile hmemL
    have hLne : eL.addr ≠ s.headA := (seg_mem hsegfull eL hmemes).1
    have hcross : ∀ x ∈ rtail, x.addr ≠ eL.addr :=
      fun x hx => Ne.symm (hpw2.2.2 eL hmemL x (List.mem_cons_of_mem _ hx))
    have hpwtake := hpw2.1
    rw [htake, List.pairwise_append] at hpwtake
    have hpre1ne : ∀ x ∈ pre1, x.addr ≠ eL.addr :=
      fun x hx => hpwtake.2.2 x hx eL (List.mem_singleton_self _)
    have hpre1 := hpre
    rw [htake] at hpre1
    obtain ⟨r1, hpre1a, hLastSeg⟩ := (seg_append_iff _ _).mp hpre1
    obtain ⟨hr1, -, fwL, hgetL, hnilL⟩ := seg_cons_elim hLastSeg
    have hfwL : fwL = headPtr (e0 :: rtail) := seg_nil_eq hnilL
    subst hfwL
    have hphd : predN = { key := some eL.key, value := some eL.value, forward := [headPtr (e0 :: rtail)] } := by
      rw [hpredN] at hgetL
      exact Option.some.inj hgetL
    subst hphd
    refine ⟨hd, ?_, ⟨p, hp, ?_⟩, hhi⟩
    · rw [List.getElem?_set_ne hLne]
      exact hhd
    · rw [htake]
      refine (seg_append_iff _ _).mpr ⟨tf, ?_, ?_⟩
      · have hf1 : Seg s.heap s.headA p (headPtr (e0 :: rtail)) (pre1 ++ [eL]) := by
          rw [← htake]
          exact hpre
        exact seg_set_last tf pre1 eL hf1 hpre1ne
      · exact seg_set_frame htail hcross

/-! ## Presence and absence along the sorted chain -/

theorem present_head_eq {es : List Entry} {k : Key} (hs : List.Chain' entLt es)
    {e : Entry} (he : e ∈ es) (hk : e.key = k) :
    ∃ rtail, es.dropWhile (ltKeyB k) = e :: rtail := by
  have hpw := chain'_pairwise_entLt hs
  have hcat := List.takeWhile_append_dropWhile (ltKeyB k) es
  have hnt : e ∉ es.takeWhile (ltKeyB k) := by
    intro hmem
    have := List.mem_takeWhile_imp hmem
    simp only [ltKeyB, hk, cmpKey_self, decide_eq_true_eq] at this
    exact absurd this (lt_irrefl 0)
  have hmemdrop : e ∈ es.dropWhile (ltKeyB k) := by
    have : e ∈ es.takeWhile (ltKeyB k) ++ es.dropWhile (ltKeyB k) := by
      rw [hcat]; exact he
    rcases List.mem_append.mp this with h | h
    · exact absurd h hnt
    · exact h
  cases hdr : es.dropWhile (ltKeyB k) with
  | nil => rw [hdr] at hmemdrop; cases hmemdrop
  | cons e0 rt =>
    rw [hdr] at hmemdrop
    rcases List.mem_cons.mp hmemdrop with rfl | hmem
    · exact ⟨rt, rfl⟩
    · exfalso
      have hpwdrop : List.Pairwise entLt (es.dropWhile (ltKeyB k)) :=
        List.Pairwise.sublist (List.dropWhile_sublist _) hpw
      rw [hdr] at hpwdrop
      have hlt : entLt e0 e := (List.pairwise_cons.mp hpwdrop).1 e hmem
      have hfalse := dropWhile_head_not (ltKeyB k) es e0 rt hdr
      simp only [ltKeyB, decide_eq_false_iff_not, not_lt] at hfalse
      have : cmpKey e0.key k < 0 := by
        have h2 : cmpKey e0.key e.key < 0 := hlt
        rw [hk] at h2
        exact h2
      omega

theorem compare_present_head {es : List Entry} {k : Key} (hs : List.Chain' entLt es)
    {e : Entry} (he : e ∈ es) (hk : cmpKey e.key k = 0) :
    ∃ e0 rtail, es.dropWhile (ltKeyB k) = e0 :: rtail ∧ cmpKey e0.key k = 0 := by
  have hpw := chain'_pairwise_entLt hs
  have hcat := List.takeWhile_append_dropWhile (ltKeyB k) es
  have hnt : e ∉ es.takeWhile (ltKeyB k) := by
    intro hmem
    have := List.mem_takeWhile_imp hmem
    simp only [ltKeyB, decide_eq_true_eq] at this
    omega
  have hmemdrop : e ∈ es.dropWhile (ltKeyB k) := by
    have : e ∈ es.takeWhile (ltKeyB k) ++ es.dropWhile (ltKeyB k) := by
      rw [hcat]; exact he
    rcases List.mem_append.mp this with h | h
    · exact absurd h hnt
    · exact h
  cases hdr : es.dropWhile (ltKeyB k) with
  | nil => rw [hdr] at hmemdrop; cases hmemdrop
  | cons e0 rt =>
    rw [hdr] at hmemdrop
    have hfalse := dropWhile_head_not (ltKeyB k) es e0 rt hdr
    simp only [ltKeyB, decide_eq_false_iff_not, not_lt] at hfalse
    rcases List.mem_cons.mp hmemdrop with rfl | hmem
    · exact ⟨e, rt, rfl, hk⟩
    · refine ⟨e0, rt, rfl, ?_⟩
      rcases lt_or_eq_of_le hfalse with hgt | heq0
      · exfalso
        have hke0 : cmpKey k e0.key < 0 := by
          rw [cmpKey_neg]; omega
        have hpwdrop : List.Pairwise entLt (es.dropWhile (ltKeyB k)) :=
          List.Pairwise.sublist (List.dropWhile_sublist _) hpw
        rw [hdr] at hpwdrop
        have h0e : cmpKey e0.key e.key < 0 := (List.pairwise_cons.mp hpwdrop).1 e hmem
        have : cmpKey k e.key < 0 := cmpKey_lt_trans hke0 h0e
        rw [cmpKey_neg] at this
        omega
      · exact heq0.symm

theorem absent_of_head_ne {es : List Entry} {k : Key} (hs : List.Chain' entLt es)
    (h : ∀ e0 ∈ (es.dropWhile (ltKeyB k)).head?, cmpKey e0.key k ≠ 0) :
    ∀ e ∈ es, cmpKey e.key k ≠ 0 := by
  intro e he hk
  obtain ⟨e0, rt, hdr, h0⟩ := compare_present_head hs he hk
  exact h e0 (by rw [hdr]; rfl) h0

/-! ## The invariant across the API -/

theorem inv_new (kt : KType) : InvWith (NewSkipList kt) [] := by
  refine ⟨rfl, ⟨{ key := none, value := none, forward := [none] }, rfl,
    ⟨none, rfl, Seg.nil none⟩, ?_⟩, rfl, List.chain'_nil⟩
  intro o ho
  simp at ho

theorem inv_clear {s : SkipList} {es : List Entry} (hinv : InvWith s es) :
    InvWith s.Clear [] := by
  obtain ⟨hd, hhd, -, -⟩ := hinv.head_node
  have hhA : s.headA < s.heap.length := by
    rcases Nat.lt_or_ge s.headA s.heap.length with h | h
    · exact h
    · rw [List.getElem?_eq_none h] at hhd
      exact Option.noConfusion hhd
  unfold SkipList.Clear
  rw [hhd]
  refine ⟨rfl, ⟨{ hd with forward := List.replicate DefaultMaxLevel none },
    List.getElem?_set_self hhA, ⟨none, rfl, Seg.nil none⟩, ?_⟩, rfl, List.chain'_nil⟩
  intro o ho
  exact List.eq_of_mem_replicate (List.mem_of_mem_drop ho)

theorem runOp_inv {s s1 : SkipList} {es : List Entry} (hinv : InvWith s es) {o : Op}
    (hwf : ∀ lvl k v, o = Op.ins lvl k v → randomLevelRange lvl)
    (hrun : runOp s o = some s1) : s1.Inv := by
  cases o with
  | clr =>
    simp only [runOp, Option.some.injEq] at hrun
    exact ⟨[], hrun ▸ inv_clear hinv⟩
  | ins lvl k v =>
    obtain ⟨h1, -⟩ := hwf lvl k v rfl
    cases hdr : es.dropWhile (ltKeyB k) with
    | cons e0 rt =>
      by_cases h0 : cmpKey e0.key k = 0
      · obtain ⟨s', hins, hinv', -⟩ := Insert_upsert hinv hdr h0 lvl v
        simp only [runOp, hins, Option.map_some', Option.some.injEq] at hrun
        exact ⟨_, hrun ▸ hinv'⟩
      · have hno : ∀ x ∈ (es.dropWhile (ltKeyB k)).head?, cmpKey x.key k ≠ 0 := by
          intro x hx
          rw [hdr] at hx
          simp only [List.head?_cons, Option.mem_def, Option.some.injEq] at hx
          rw [← hx]
          exact h0
        rcases Nat.lt_or_ge lvl 2 with h2 | h2
        · have hl1 : lvl = 1 := by omega
          subst hl1
          obtain ⟨s', hins, hinv', -⟩ := Insert_new hinv v hno
          simp only [runOp, hins, Option.map_some', Option.some.injEq] at hrun
          exact ⟨_, hrun ▸ hinv'⟩
        · have hpanic := Insert_panic hinv v hno h2
          simp only [runOp, hpanic, Option.map_none'] at hrun
          exact Option.noConfusion hrun
    | nil =>
      have hno : ∀ x ∈ (es.dropWhile (ltKeyB k)).head?, cmpKey x.key k ≠ 0 := by
        intro x hx
        rw [hdr] at hx
        exact absurd hx (by simp)
      rcases Nat.lt_or_ge lvl 2 with h2 | h2
      · have hl1 : lvl = 1 := by omega
        subst hl1
        obtain ⟨s', hins, hinv', -⟩ := Insert_new hinv v hno
        simp only [runOp, hins, Option.map_some', Option.some.injEq] at hrun
        · exact ⟨_, hrun ▸ hinv'⟩
      · have hpanic := Insert_panic hinv v hno h2
        simp only [runOp, hpanic, Option.map_none'] at hrun
        exact Option.noConfusion hrun
  | del k =>
    cases hdr : es.dropWhile (ltKeyB k) with
    | cons e0 rt =>
      by_cases h0 : cmpKey e0.key k = 0
      · obtain ⟨s', hdel, hinv', -⟩ := Delete_found hinv hdr h0
        simp only [runOp, hdel, Option.map_some', Option.some.injEq] at hrun
        exact ⟨_, hrun ▸ hinv'⟩
      · have hno : ∀ x ∈ (es.dropWhile (ltKeyB k)).head?, cmpKey x.key k ≠ 0 := by
          intro x hx
          rw [hdr] at hx
          simp only [List.head?_cons, Option.mem_def, Option.some.injEq] at hx
          rw [← hx]
          exact h0
        have hdel := Delete_notfound hinv hno
        simp only [runOp, hdel, Option.map_some', Option.some.injEq] at hrun
        exact ⟨_, hrun ▸ hinv⟩
    | nil =>
      have hno : ∀ x ∈ (es.dropWhile (ltKeyB k)).head?, cmpKey x.key k ≠ 0 := by
        intro x hx
        rw [hdr] at hx
        exact absurd hx (by simp)
      have hdel := Delete_notfound hinv hno
      simp only [runOp, hdel, Option.map_some', Option.some.injEq] at hrun
      exact ⟨_, hrun ▸ hinv⟩

theorem runOps_inv : ∀ (ops : List Op) (s s1 : SkipList), s.Inv →
    (∀ o ∈ ops, ∀ lvl k v, o = Op.ins lvl k v → randomLevelRange lvl) →
    runOps s ops = some s1 → s1.Inv := by
  intro ops
  induction ops with
  | nil =>
    intro s s1 hinv hwf hrun
    simp only [runOps, Option.some.injEq] at hrun
    exact hrun ▸ hinv
  | cons o os ih =>
    intro s s1 hinv hwf hrun
    unfold runOps at hrun
    cases hro : runOp s o with
    | none => rw [hro] at hrun; exact Option.noConfusion hrun
    | some smid =>
      rw [hro] at hrun
      obtain ⟨es, hi⟩ := hinv
      have hmid : smid.Inv :=
        runOp_inv hi (fun lvl k v h => hwf o (List.mem_cons_self _ _) lvl k v h) hro
      exact ih smid s1 hmid (fun o2 h2 => hwf o2 (List.mem_cons_of_mem _ h2)) hrun

/-! ## Per-level key lists under the invariant -/

theorem keysAtLevelFrom_spec (s : SkipList) :
    ∀ (es : List Entry) (fuel : Nat) (p : Option Nat),
      es.length < fuel →
      Seg s.heap s.headA p none es →
      SkipList.keysAtLevelFrom s 0 fuel p = some (es.map Entry.key) := by
  intro es
  induction es with
  | nil =>
    intro fuel p hf hseg
    cases fuel with
    | zero => exact absurd hf (Nat.not_lt_zero _)
    | succ fuel => rw [seg_nil_eq hseg]; rfl
  | cons e rest ih =>
    intro fuel p hf hseg
    obtain ⟨hp, hne, fw, hget, htail⟩ := seg_cons_elim hseg
    cases fuel with
    | zero => exact absurd hf (Nat.not_lt_zero _)
    | succ fuel =>
      subst hp
      unfold SkipList.keysAtLevelFrom
      rw [hget]
      simp only [List.getElem?_cons_zero]
      rw [ih fuel fw (by simpa using Nat.lt_of_succ_lt_succ hf) htail]
      rfl

theorem keysAtLevel_zero {s : SkipList} {es : List Entry} (hinv : InvWith s es) :
    s.keysAtLevel 0 = some (es.map Entry.key) := by
  obtain ⟨hd, hhd, ⟨p, hp, hseg⟩, -⟩ := hinv.head_node
  unfold SkipList.keysAtLevel
  have hrf : s.readFwd s.headA 0 = some p := by
    unfold SkipList.readFwd
    rw [hhd]
    simpa using hp
  rw [hrf]
  exact keysAtLevelFrom_spec s es _ p
    (Nat.lt_succ_of_le (seg_length_le hseg hinv.sorted)) hseg

theorem keysAtLevel_high {s : SkipList} {es : List Entry} (hinv : InvWith s es)
    {i : Nat} (hi : 1 ≤ i) {ks : List Key} (h : s.keysAtLevel i = some ks) : ks = [] := by
  obtain ⟨hd, hhd, ⟨p, hp, -⟩, hhi⟩ := hinv.head_node
  cases hfw : hd.forward[i]? with
  | none =>
    have hrf : s.readFwd s.headA i = none := by
      unfold SkipList.readFwd
      rw [hhd, Option.some_bind, hfw]
    unfold SkipList.keysAtLevel at h
    rw [hrf] at h
    exact Option.noConfusion h
  | some o =>
    have ho : o = none := by
      refine hhi o ?_
      have h2 := List.getElem?_drop hd.forward 1 (i - 1)
      rw [show 1 + (i - 1) = i by omega] at h2
      exact List.getElem?_mem (h2.trans hfw)
    subst ho
    have hrf : s.readFwd s.headA i = some none := by
      unfold SkipList.readFwd
      rw [hhd, Option.some_bind, hfw]
    unfold SkipList.keysAtLevel at h
    simp only [hrf] at h
    have h3 : SkipList.keysAtLevelFrom s i (s.heap.length + 1) none = some [] := rfl
    rw [h3] at h
    exact (Option.some.inj h).symm

theorem inv_level_sorted {s : SkipList} {es : List Entry} (hinv : InvWith s es) :
    ∀ i ks, s.keysAtLevel i = some ks → List.Chain' (fun a b => cmpKey a b < 0) ks := by
  intro i ks h
  cases i with
  | zero =>
    rw [keysAtLevel_zero hinv] at h
    rw [← Option.some.inj h]
    rw [List.chain'_map]
    exact hinv.sorted
  | succ i =>
    rw [keysAtLevel_high hinv (Nat.succ_le_succ (Nat.zero_le _)) h]
    exact List.chain'_nil

theorem inv_keys_nodup {s : SkipList} {es : List Entry} (hinv : InvWith s es)
    {ks : List Key} (h : s.keysAtLevel 0 = some ks) : ks.Nodup := by
  rw [keysAtLevel_zero hinv] at h
  rw [← Option.some.inj h]
  unfold List.Nodup
  rw [List.pairwise_map]
  refine (chain'_pairwise_entLt hinv.sorted).imp ?_
  intro a b hab heq
  unfold entLt at hab
  rw [heq, cmpKey_self] at hab
  exact absurd hab (by decide)

/-! ## Iterator characterization under the invariant -/

theorem iterateFrom_spec (s : SkipList) :
    ∀ (es : List Entry) (fuel : Nat) (a : Nat) (b : Bool) (n : Node) (p : Option Nat),
      es.length < fuel →
      s.heap[a]? = some n →
      n.forward[0]? = some p →
      Seg s.heap s.headA p none es →
      SkipList.iterateFrom s fuel { node := a, isHead := b } =
        some (es.map fun e => some e.key) := by
  intro es
  induction es with
  | nil =>
    intro fuel a b n p hf hn hp hseg
    cases fuel with
    | zero => exact absurd hf (Nat.not_lt_zero _)
    | succ fuel =>
      have hp0 : p = none := seg_nil_eq hseg
      subst hp0
      unfold SkipList.iterateFrom
      have hnext : SkipListIterator.Next s { node := a, isHead := b } =
          some ({ node := a, isHead := b }, false) := by
        unfold SkipListIterator.Next SkipList.readFwd
        rw [hn, Option.some_bind, hp]
      simp only [hnext]
      rfl
  | cons e rest ih =>
    intro fuel a b n p hf hn hp hseg
    obtain ⟨hpe, hne, fw, hget, htail⟩ := seg_cons_elim hseg
    subst hpe
    cases fuel with
    | zero => exact absurd hf (Nat.not_lt_zero _)
    | succ fuel =>
      unfold SkipList.iterateFrom
      have hnext : SkipListIterator.Next s { node := a, isHead := b } =
          some ({ node := e.addr, isHead := false }, true) := by
        unfold SkipListIterator.Next SkipList.readFwd
        rw [hn, Option.some_bind, hp]
      simp only [hnext]
      have hkey : SkipListIterator.Key s { node := e.addr, isHead := false } =
          some (some e.key) := by
        unfold SkipListIterator.Key
        rw [hget]
        rfl
      simp only [hkey]
      rw [ih fuel e.addr false _ fw (Nat.lt_of_succ_lt_succ (by simpa using hf)) hget
        (by rfl) htail]
      rfl

theorem iterate_spec {s : SkipList} {es : List Entry} (hinv : InvWith s es) :
    s.iterate = some (es.map fun e => some e.key) := by
  obtain ⟨hd, hhd, ⟨p, hp, hseg⟩, -⟩ := hinv.head_node
  unfold SkipList.iterate
  exact iterateFrom_spec s es _ s.headA true hd p
    (Nat.lt_succ_of_le (seg_length_le hseg hinv.sorted)) hhd hp hseg

theorem iterator_key_at_head (s : SkipList) :
    SkipListIterator.Key s s.Iterator = some none ∧
    SkipListIterator.Value s s.Iterator = some none := ⟨rfl, rfl⟩

theorem iterator_key_off_head {s : SkipList} {it : SkipListIterator} {n : Node}
    (hh : it.isHead = false) (hn : s.heap[it.node]? = some n) :
    SkipListIterator.Key s it = some n.key ∧
    SkipListIterator.Value s it = some n.value := by
  constructor
  · unfold SkipListIterator.Key
    rw [hh, hn]
    rfl
  · unfold SkipListIterator.Value
    rw [hh, hn]
    rfl

/-! ## MinInt and MaxInt under the invariant -/

theorem chain_type_uniform {es : List Entry} (h : List.Chain' entLt es) :
    ∀ e1 ∈ es, ∀ e2 ∈ es, e1.key.typeOf = e2.key.typeOf := by
  have hp : es.Pairwise (fun a b => a.key.typeOf = b.key.typeOf) :=
    (chain'_pairwise_entLt h).imp fun hab => cmpKey_lt_same_type hab
  intro e1 h1 e2 h2
  by_cases he : e1 = e2
  · rw [he]
  · exact List.Pairwise.forall (fun _ _ hab => hab.symm) hp h1 h2 he

theorem intKeys_cons_int (m : Int) (e : Entry) (rest : List Entry)
    (he : e.key = Key.KInt m) : intKeys (e :: rest) = m :: intKeys rest := by
  simp [intKeys, he]

theorem intKeys_cons_nonint (e : Entry) (rest : List Entry)
    (he : e.key.typeOf ≠ KType.kInt) : intKeys (e :: rest) = intKeys rest := by
  cases hk : e.key with
  | KInt m => rw [hk] at he; exact absurd rfl he
  | KStr a => simp [intKeys, hk]
  | KOther t => simp [intKeys, hk]

theorem intKeys_nil_of_nonint {es : List Entry}
    (h : ∀ e ∈ es, e.key.typeOf ≠ KType.kInt) : intKeys es = [] := by
  induction es with
  | nil => rfl
  | cons e rest ih =>
    rw [intKeys_cons_nonint e rest (h e (List.mem_cons_self e rest))]
    exact ih fun e1 he1 => h e1 (List.mem_cons_of_mem _ he1)

theorem mem_intKeys {es : List Entry} {x : Int} :
    x ∈ intKeys es ↔ ∃ e ∈ es, e.key = Key.KInt x := by
  unfold intKeys
  rw [List.mem_filterMap]
  constructor
  · rintro ⟨e, he, hf⟩
    refine ⟨e, he, ?_⟩
    cases hk : e.key with
    | KInt n => rw [hk] at hf; rw [Option.some.inj hf]
    | KStr a => rw [hk] at hf; exact Option.noConfusion hf
    | KOther t => rw [hk] at hf; exact Option.noConfusion hf
  · rintro ⟨e, he, hk⟩
    exact ⟨e, he, by rw [hk]⟩

theorem foldl_min_eq {m : Int} :
    ∀ (xs : List Int) (a : Int), (∀ y ∈ a :: xs, m ≤ y) → m ∈ a :: xs →
      xs.foldl min a = m
  | [], a, hle, hm => by
    rw [List.foldl_nil]
    exact (List.mem_singleton.mp hm).symm
  | x :: xs, a, hle, hm => by
    rw [List.foldl_cons]
    have hma : m ≤ a := hle a (List.mem_cons_self _ _)
    have hmx : m ≤ x := hle x (List.mem_cons_of_mem _ (List.mem_cons_self _ _))
    refine foldl_min_eq xs (min a x) ?_ ?_
    · intro y hy
      rcases List.mem_cons.mp hy with h | hy1
      · omega
      · exact hle y (List.mem_cons_of_mem _ (List.mem_cons_of_mem _ hy1))
    · rcases List.mem_cons.mp hm with h | hm1
      · exact List.mem_cons.mpr (Or.inl (by omega))
      · rcases List.mem_cons.mp hm1 with h | hm2
        · exact List.mem_cons.mpr (Or.inl (by omega))
        · exact List.mem_cons.mpr (Or.inr hm2)

theorem foldl_max_eq {m : Int} :
    ∀ (xs : List Int) (a : Int), (∀ y ∈ a :: xs, y ≤ m) → m ∈ a :: xs →
      xs.foldl max a = m
  | [], a, hle, hm => by
    rw [List.foldl_nil]
    exact (List.mem_singleton.mp hm).symm
  | x :: xs, a, hle, hm => by
    rw [List.foldl_cons]
    have hma : a ≤ m := hle a (List.mem_cons_self _ _)
    have hmx : x ≤ m := hle x (List.mem_cons_of_mem _ (List.mem_cons_self _ _))
    refine foldl_max_eq xs (max a x) ?_ ?_
    · intro y hy
      rcases List.mem_cons.mp hy with h | hy1
      · omega
      · exact hle y (List.mem_cons_of_mem _ (List.mem_cons_of_mem _ hy1))
    · rcases List.mem_cons.mp hm with h | hm1
      · exact List.mem_cons.mpr (Or.inl (by omega))
      · rcases List.mem_cons.mp hm1 with h | hm2
        · exact List.mem_cons.mpr (Or.inl (by omega))
        · exact List.mem_cons.mpr (Or.inr hm2)

theorem minIntLoop_spec (s : SkipList) :
    ∀ (es : List Entry) (fuel : Nat) (p : Option Nat),
      es.length < fuel →
      Seg s.heap s.headA p none es →
      SkipList.minIntLoop s fuel p =
        some (match intKeys es with
              | [] => ((0 : Int), false)
              | m :: _ => (m, true)) := by
  intro es
  induction es with
  | nil =>
    intro fuel p hf hseg
    cases fuel with
    | zero => exact absurd hf (Nat.not_lt_zero _)
    | succ fuel =>
      rw [seg_nil_eq hseg]
      rfl
  | cons e rest ih =>
    intro fuel p hf hseg
    obtain ⟨hpe, hne, fw, hget, htail⟩ := seg_cons_elim hseg
    subst hpe
    cases fuel with
    | zero => exact absurd hf (Nat.not_lt_zero _)
    | succ fuel =>
      unfold SkipList.minIntLoop
      rw [if_neg hne]
      simp only [hget]
      cases hk : e.key with
      | KInt m =>
        simp only [hk]
        rw [intKeys_cons_int m e rest hk]
      | KStr a =>
        simp only [hk, List.getElem?_cons_zero]
        rw [intKeys_cons_nonint e rest (by rw [hk]; simp [Key.typeOf])]
        exact ih fuel fw (by simpa using Nat.lt_of_succ_lt_succ hf) htail
      | KOther t =>
        simp only [hk, List.getElem?_cons_zero]
        rw [intKeys_cons_nonint e rest (by rw [hk]; simp [Key.typeOf])]
        exact ih fuel fw (by simpa using Nat.lt_of_succ_lt_succ hf) htail

theorem MinInt_spec {s : SkipList} {es : List Entry} (hinv : InvWith s es) :
    s.MinInt = some (minIntScanSpec es) := by
  obtain ⟨hd, hhd, ⟨p, hp, hseg⟩, -⟩ := hinv.head_node
  unfold SkipList.MinInt
  cases hes : es with
  | nil =>
    rw [if_pos (by rw [hinv.length_eq, hes]; rfl)]
    rfl
  | cons e rest =>
    subst hes
    have hlen : ¬ s.length = 0 := by rw [hinv.length_eq]; simp
    rw [if_neg hlen]
    have hrf : s.readFwd s.headA 0 = some p := by
      unfold SkipList.readFwd
      rw [hhd, Option.some_bind, hp]
    simp only [hrf]
    rw [minIntLoop_spec s (e :: rest) _ p
      (Nat.lt_succ_of_le (seg_length_le hseg hinv.sorted)) hseg]
    congr 1
    have hpc := (List.pairwise_cons.mp (chain'_pairwise_entLt hinv.sorted)).1
    cases hk : e.key with
    | KInt m =>
      unfold minIntScanSpec
      rw [intKeys_cons_int m e rest hk]
      simp only
      have hmin : (intKeys rest).foldl min m = m := by
        refine foldl_min_eq (intKeys rest) m ?_ (List.mem_cons_self _ _)
        intro y hy
        rcases List.mem_cons.mp hy with h | hy1
        · omega
        · obtain ⟨e1, he1, hk1⟩ := mem_intKeys.mp hy1
          have hlt := hpc e1 he1
          unfold entLt at hlt
          rw [hk, hk1] at hlt
          exact le_of_lt ((cmpKey_int_lt_iff m y).mp hlt)
      rw [hmin]
    | KStr a =>
      have hnone : intKeys (e :: rest) = [] := by
        refine intKeys_nil_of_nonint ?_
        intro e1 he1
        have ht := chain_type_uniform hinv.sorted e1 he1 e (List.mem_cons_self _ _)
        rw [ht, hk]
        simp [Key.typeOf]
      unfold minIntScanSpec
      rw [hnone]
    | KOther t =>
      have hnone : intKeys (e :: rest) = [] := by
        refine intKeys_nil_of_nonint ?_
        intro e1 he1
        have ht := chain_type_uniform hinv.sorted e1 he1 e (List.mem_cons_self _ _)
        rw [ht, hk]
        simp [Key.typeOf]
      unfold minIntScanSpec
      rw [hnone]

theorem runToEnd_spec (s : SkipList) :
    ∀ (es : List Entry) (fuel a : Nat) (n : Node) (p : Option Nat),
      es.length < fuel →
      s.heap[a]? = some n →
      n.forward[0]? = some p →
      Seg s.heap s.headA p none es →
      SkipList.runToEnd s 0 fuel a = some ((es.map Entry.addr).getLastD a) := by
  intro es
  induction es with
  | nil =>
    intro fuel a n p hf hn hp hseg
    cases fuel with
    | zero => exact absurd hf (Nat.not_lt_zero _)
    | succ fuel =>
      have hp0 : p = none := seg_nil_eq hseg
      subst hp0
      have hrf : s.readFwd a 0 = some none := by
        unfold SkipList.readFwd
        rw [hn, Option.some_bind, hp]
      unfold SkipList.runToEnd
      simp only [hrf]
      rfl
  | cons e rest ih =>
    intro fuel a n p hf hn hp hseg
    obtain ⟨hpe, hne, fw, hget, htail⟩ := seg_cons_elim hseg
    subst hpe
    cases fuel with
    | zero => exact absurd hf (Nat.not_lt_zero _)
    | succ fuel =>
      have hrf : s.readFwd a 0 = some (some e.addr) := by
        unfold SkipList.readFwd
        rw [hn, Option.some_bind, hp]
      unfold SkipList.runToEnd
      simp only [hrf]
      rw [if_neg hne]
      rw [ih fuel e.addr _ fw (by simpa using Nat.lt_of_succ_lt_succ hf) hget (by rfl) htail]
      rw [List.map_cons, List.getLastD_cons]

theorem descendEnd_one (s : SkipList) (a : Nat) :
    SkipList.descendEnd s 1 a =
      match SkipList.runToEnd s 0 (s.heap.length + 1) a with
      | none => none
      | some c => some c := by
  show SkipList.descendEnd s (0 + 1) a = _
  unfold SkipList.descendEnd
  cases h : SkipList.runToEnd s 0 (s.heap.length + 1) a with
  | none => rfl
  | some c =>
    simp only
    unfold SkipList.descendEnd
    rfl

theorem MaxInt_spec {s : SkipList} {es : List Entry} (hinv : InvWith s es) :
    s.MaxInt = some (maxIntScanSpec es) := by
  obtain ⟨hd, hhd, ⟨p, hp, hseg⟩, -⟩ := hinv.head_node
  unfold SkipList.MaxInt
  rcases List.eq_nil_or_concat es with hes | ⟨l, e, hes⟩
  · subst hes
    rw [if_pos (by rw [hinv.length_eq]; rfl)]
    rfl
  · subst hes
    have hlen : ¬ s.length = 0 := by
      rw [hinv.length_eq, List.length_concat]
      exact Nat.succ_ne_zero _
    rw [if_neg hlen]
    rw [hinv.level_eq, descendEnd_one]
    rw [runToEnd_spec s (l.concat e) _ s.headA hd p
      (Nat.lt_succ_of_le (seg_length_le hseg hinv.sorted)) hhd hp hseg]
    have hfin : ((l.concat e).map Entry.addr).getLastD s.headA = e.addr := by
      rw [List.map_concat, List.concat_eq_append]
      exact List.getLastD_concat _ _ _
    rw [hfin]
    have hee : e ∈ l.concat e := by simp [List.concat_eq_append]
    obtain ⟨-, fw, hget⟩ := seg_mem hseg e hee
    simp only [hget]
    have hpw := chain'_pairwise_entLt hinv.sorted
    rw [List.concat_eq_append] at hpw
    have hlast := (List.pairwise_append.mp hpw).2.2
    cases hk : e.key with
    | KInt m =>
      have hmem : m ∈ intKeys (l.concat e) := mem_intKeys.mpr ⟨e, hee, hk⟩
      have hub : ∀ y ∈ intKeys (l.concat e), y ≤ m := by
        intro y hy
        obtain ⟨e1, he1, hk1⟩ := mem_intKeys.mp hy
        rw [List.concat_eq_append] at he1
        rcases List.mem_append.mp he1 with he2 | he2
        · have hlt := hlast e1 he2 e (List.mem_singleton.mpr rfl)
          unfold entLt at hlt
          rw [hk, hk1] at hlt
          exact le_of_lt ((cmpKey_int_lt_iff y m).mp hlt)
        · rw [List.mem_singleton.mp he2] at hk1
          rw [hk1] at hk
          rw [Key.KInt.injEq] at hk
          omega
      have hscan : maxIntScanSpec (l.concat e) = (m, true) := by
        unfold maxIntScanSpec
        cases hik : intKeys (l.concat e) with
        | nil => rw [hik] at hmem; cases hmem
        | cons x xs =>
          simp only
          rw [hik] at hmem hub
          rw [foldl_max_eq xs x hub hmem]
      rw [hscan]
      rfl
    | KStr a =>
      have hnone : intKeys (l.concat e) = [] := by
        refine intKeys_nil_of_nonint ?_
        intro e1 he1
        have ht := chain_type_uniform hinv.sorted e1 he1 e hee
        rw [ht, hk]
        simp [Key.typeOf]
      have hscan : maxIntScanSpec (l.concat e) = (0, false) := by
        unfold maxIntScanSpec
        rw [hnone]
      rw [hscan]
      rfl
    | KOther t =>
      have hnone : intKeys (l.concat e) = [] := by
        refine intKeys_nil_of_nonint ?_
        intro e1 he1
        have ht := chain_type_uniform hinv.sorted e1 he1 e hee
        rw [ht, hk]
        simp [Key.typeOf]
      have hscan : maxIntScanSpec (l.concat e) = (0, false) := by
        unfold maxIntScanSpec
        rw [hnone]
      rw [hscan]
      rfl

/-! ## SortByKey under the invariant -/

theorem collectKeys_spec (s : SkipList) :
    ∀ (es : List Entry) (fuel : Nat) (p : Option Nat),
      es.length < fuel →
      Seg s.heap s.headA p none es →
      SkipList.collectKeys s fuel p = some (es.map fun e => some e.key) := by
  intro es
  induction es with
  | nil =>
    intro fuel p hf hseg
    cases fuel with
    | zero => exact absurd hf (Nat.not_lt_zero _)
    | succ fuel => rw [seg_nil_eq hseg]; rfl
  | cons e rest ih =>
    intro fuel p hf hseg
    obtain ⟨hpe, hne, fw, hget, htail⟩ := seg_cons_elim hseg
    subst hpe
    cases fuel with
    | zero => exact absurd hf (Nat.not_lt_zero _)
    | succ fuel =>
      unfold SkipList.collectKeys
      simp only [hget, List.getElem?_cons_zero]
      rw [ih fuel fw (by simpa using Nat.lt_of_succ_lt_succ hf) htail]
      rfl

theorem insertSorted_cons {less : KeyOpt → KeyOpt → Bool} (x : KeyOpt) :
    ∀ l : List KeyOpt, (∀ y, l.head? = some y → less y x = false) →
      insertSorted less x l = x :: l
  | [], _ => rfl
  | y :: ys, h => by
    unfold insertSorted
    rw [h y rfl]
    rfl

theorem insertSorted_append {less : KeyOpt → KeyOpt → Bool} (x : KeyOpt) :
    ∀ l : List KeyOpt, (∀ y ∈ l, less y x = true) →
      insertSorted less x l = l ++ [x]
  | [], _ => rfl
  | y :: ys, h => by
    unfold insertSorted
    rw [h y (List.mem_cons_self _ _)]
    rw [insertSorted_append x ys fun z hz => h z (List.mem_cons_of_mem _ hz)]
    rfl

theorem sortSlice_pairwise_id {less : KeyOpt → KeyOpt → Bool}
    (hasym : ∀ a b, less a b = true → less b a = false) :
    ∀ {l : List KeyOpt}, List.Pairwise (fun a b => less a b = true) l →
      sortSlice less l = l := by
  intro l
  induction l with
  | nil => intro h; rfl
  | cons x l ih =>
    intro h
    obtain ⟨hx, hl⟩ := List.pairwise_cons.mp h
    show insertSorted less x (sortSlice less l) = x :: l
    rw [ih hl]
    refine insertSorted_cons x l ?_
    intro y hy
    cases l with
    | nil => exact Option.noConfusion hy
    | cons z zs =>
      have hzy : z = y := Option.some.inj hy
      rw [← hzy]
      exact hasym x z (hx z (List.mem_cons_self _ _))

theorem sortSlice_flip_reverse {less : KeyOpt → KeyOpt → Bool} :
    ∀ {l : List KeyOpt}, List.Pairwise (fun a b => less a b = true) l →
      sortSlice (fun a b => less b a) l = l.reverse := by
  intro l
  induction l with
  | nil => intro h; rfl
  | cons x l ih =>
    intro h
    obtain ⟨hx, hl⟩ := List.pairwise_cons.mp h
    show insertSorted (fun a b => less b a) x (sortSlice (fun a b => less b a) l) =
      (x :: l).reverse
    rw [ih hl, List.reverse_cons]
    refine insertSorted_append x l.reverse ?_
    intro y hy
    exact hx y (List.mem_reverse.mp hy)

theorem compareKeysOrValues_asymm :
    ∀ a b : KeyOpt, compareKeysOrValues a b = true → compareKeysOrValues b a = false
  | some (Key.KInt ia), some (Key.KInt ib) => by
    simp only [compareKeysOrValues, decide_eq_true_eq, decide_eq_false_iff_not]
    omega
  | some (Key.KStr sa), some (Key.KStr sb) => by
    simp only [compareKeysOrValues, strLt, decide_eq_true_eq, decide_eq_false_iff_not]
    have hn := strCmp_neg sa sb
    omega
  | none, _ => fun h => Bool.noConfusion h
  | some (Key.KInt _), none => fun h => Bool.noConfusion h
  | some (Key.KInt _), some (Key.KStr _) => fun h => Bool.noConfusion h
  | some (Key.KInt _), some (Key.KOther _) => fun h => Bool.noConfusion h
  | some (Key.KStr _), none => fun h => Bool.noConfusion h
  | some (Key.KStr _), some (Key.KInt _) => fun h => Bool.noConfusion h
  | some (Key.KStr _), some (Key.KOther _) => fun h => Bool.noConfusion h
  | some (Key.KOther _), _ => fun h => Bool.noConfusion h

theorem pairwise_cKOV {es : List Entry} (hs : List.Chain' entLt es) :
    List.Pairwise (fun a b => compareKeysOrValues a b = true)
      (es.map fun e => some e.key) := by
  rw [List.pairwise_map]
  refine (chain'_pairwise_entLt hs).imp ?_
  intro a b hab
  unfold entLt at hab
  cases hka : a.key with
  | KInt ia =>
    cases hkb : b.key with
    | KInt ib =>
      rw [hka, hkb] at hab
      simp only [compareKeysOrValues, decide_eq_true_eq]
      exact (cmpKey_int_lt_iff ia ib).mp hab
    | KStr sb => rw [hka, hkb] at hab; simp [cmpKey] at hab
    | KOther t => rw [hka, hkb] at hab; simp [cmpKey] at hab
  | KStr sa =>
    cases hkb : b.key with
    | KInt ib => rw [hka, hkb] at hab; simp [cmpKey] at hab
    | KStr sb =>
      rw [hka, hkb] at hab
      simp only [cmpKey] at hab
      simp only [compareKeysOrValues, strLt, decide_eq_true_eq]
      exact hab
    | KOther t => rw [hka, hkb] at hab; simp [cmpKey] at hab
  | KOther t =>
    rw [hka] at hab
    rw [cmpKey_other_left (by rw [Key.typeOf]) b.key] at hab
    exact absurd hab (by decide)

theorem SortByKey_spec {s : SkipList} {es : List Entry} (hinv : InvWith s es) :
    s.SortByKey false = some (es.map fun e => some e.key) ∧
    s.SortByKey true = some ((es.map fun e => some e.key).reverse) := by
  have hpw := pairwise_cKOV hinv.sorted
  obtain ⟨hd, hhd, ⟨p, hp, hseg⟩, -⟩ := hinv.head_node
  cases hes : es with
  | nil =>
    subst hes
    have hz : s.length = 0 := by rw [hinv.length_eq]; rfl
    unfold SkipList.SortByKey
    rw [if_pos hz, if_pos hz]
    exact ⟨rfl, rfl⟩
  | cons e rest =>
    subst hes
    have hlen : ¬ s.length = 0 := by rw [hinv.length_eq]; simp
    have hrf : s.readFwd s.headA 0 = some p := by
      unfold SkipList.readFwd
      rw [hhd, Option.some_bind, hp]
    have hck := collectKeys_spec s (e :: rest) (s.heap.length + 1) p
      (Nat.lt_succ_of_le (seg_length_le hseg hinv.sorted)) hseg
    constructor
    · unfold SkipList.SortByKey
      rw [if_neg hlen]
      simp only [hrf, hck]
      rw [Option.map_some']
      rw [if_neg Bool.false_ne_true]
      rw [sortSlice_pairwise_id compareKeysOrValues_asymm hpw]
    · unfold SkipList.SortByKey
      rw [if_neg hlen]
      simp only [hrf, hck]
      rw [Option.map_some']
      rw [if_pos trivial]
      rw [sortSlice_flip_reverse hpw]

/-! ## Presence, absence and concrete-state helpers for the claims -/

theorem dropWhile_append_head {p : Entry → Bool} :
    ∀ (l1 : List Entry) {l2 : List Entry},
      (∀ e ∈ l1, p e = true) → (∀ e0 ∈ l2.head?, p e0 = false) →
      (l1 ++ l2).dropWhile p = l2
  | [], l2, _, h2 => by
    cases l2 with
    | nil => rfl
    | cons y ys =>
      rw [List.nil_append, List.dropWhile_cons, h2 y rfl]
      simp
  | x :: xs, l2, h1, h2 => by
    rw [List.cons_append, List.dropWhile_cons, h1 x (List.mem_cons_self _ _)]
    simp only [if_true]
    exact dropWhile_append_head xs (fun e he => h1 e (List.mem_cons_of_mem _ he)) h2

theorem Search_absent {s : SkipList} {es : List Entry} (hinv : InvWith s es) {k : Key}
    (habs : ∀ e ∈ es, cmpKey e.key k ≠ 0) :
    s.Search (some k) = some (none, some SLErr.notFound) := by
  rw [Search_spec hinv k]
  cases hdr : es.dropWhile (ltKeyB k) with
  | nil => rfl
  | cons e0 rt =>
    have he0 : e0 ∈ es := by
      refine (List.dropWhile_sublist (ltKeyB k)).mem ?_
      rw [hdr]
      exact List.mem_cons_self _ _
    simp only
    rw [if_neg (habs e0 he0)]

theorem randomLevelRange_one : randomLevelRange 1 := ⟨Nat.le_refl 1, by omega⟩

theorem inv_cexIntList : InvWith cexIntList [⟨1, Key.KInt 1, 10⟩] := by
  refine ⟨rfl, ⟨{ key := none, value := none, forward := [some 1] }, rfl,
    ⟨some 1, rfl, ?_⟩, ?_⟩, rfl, List.chain'_singleton _⟩
  · exact Seg.cons ⟨1, Key.KInt 1, 10⟩ none none [] (by decide) rfl (Seg.nil none)
  · intro o ho
    simp at ho

theorem inv_cexStrList :
    InvWith cexStrList [⟨1, Key.KStr "", 1⟩, ⟨2, Key.KStr "a", 2⟩] := by
  refine ⟨rfl, ⟨{ key := none, value := none, forward := [some 1] }, rfl,
    ⟨some 1, rfl, ?_⟩, ?_⟩, rfl, ?_⟩
  · exact Seg.cons ⟨1, Key.KStr "", 1⟩ (some 2) none [⟨2, Key.KStr "a", 2⟩] (by decide) rfl
      (Seg.cons ⟨2, Key.KStr "a", 2⟩ none none [] (by decide) rfl (Seg.nil none))
  · intro o ho
    simp at ho
  · refine List.chain'_cons.mpr ⟨?_, List.chain'_singleton _⟩
    unfold entLt
    decide

/-! ## The claims -/

/-- C1: the spec promises that `Insert` never fails on a non-nil key — when the
sampled height exceeds the current level it is supposed to extend the head's
forward array and the update vector and then splice.  In the code the grow loop
writes `update[i]` for `i = s.level .. level-1` into a slice allocated with
length `s.level`, an out-of-range write.  Concretely: on a fresh int-keyed
list, an insert whose sampled level is 2 (a value `randomLevel` can return)
panics (`none` in the model), while the same insert at sampled level 1
completes.  The claim is refuted by the code: this is a code bug. -/
theorem C1_insert_level_growth_panics :
    randomLevelRange 2 ∧
    (NewSkipList KType.kInt).Insert 2 (some (Key.KInt 5)) 7 = none ∧
    (NewSkipList KType.kInt).Insert 1 (some (Key.KInt 5)) 7 ≠ none := by
  refine ⟨⟨by omega, by omega⟩, by decide, by decide⟩

/-- C7: under the representation invariant, `SortByKey(false)` returns exactly
the key sequence of a full iteration, and `SortByKey(true)` its reverse.  (Any
list reachable through the API satisfies the invariant, and its keys are
automatically of one supported primitive type because the comparator orders no
other pairs.) -/
theorem C7_sortByKey_iteration {s : SkipList} {es : List Entry}
    (hinv : InvWith s es) :
    ∃ ks : List KeyOpt, s.iterate = some ks ∧
      s.SortByKey false = some ks ∧ s.SortByKey true = some ks.reverse :=
  ⟨es.map fun e => some e.key, iterate_spec hinv, (SortByKey_spec hinv).1,
    (SortByKey_spec hinv).2⟩

theorem C7_sortByKey_iteration_witness :
    ∃ ks : List KeyOpt, cexStrList.iterate = some ks ∧
      cexStrList.SortByKey false = some ks ∧
      cexStrList.SortByKey true = some ks.reverse :=
  C7_sortByKey_iteration inv_cexStrList

/-- C8: under the representation invariant, `MinInt` and `MaxInt` return
exactly the result of a full bottom-level scan over the live nodes that
considers only int keys (`minIntScanSpec` / `maxIntScanSpec`): the true
minimum/maximum int key with found-flag `true` when one exists, and
`(0, false)` — no error — when the list is empty or holds no int key. -/
theorem C8_minmax_scan {s : SkipList} {es : List Entry} (hinv : InvWith s es) :
    s.MinInt = some (minIntScanSpec es) ∧ s.MaxInt = some (maxIntScanSpec es) :=
  ⟨MinInt_spec hinv, MaxInt_spec hinv⟩

theorem C8_minmax_scan_witness :
    cexIntList.MinInt = some (minIntScanSpec [⟨1, Key.KInt 1, 10⟩]) ∧
    cexIntList.MaxInt = some (maxIntScanSpec [⟨1, Key.KInt 1, 10⟩]) :=
  C8_minmax_scan inv_cexIntList

/-- C9: the spec requires the empty string to be a valid, fully reportable key,
and `MinString`/`MaxString` to return the lexicographic extremes among stored
string keys, with "no result" only for a list without string keys.  The code
uses `""` as its internal "nothing yet" sentinel, so the empty-string key is
lost: on the list with keys `""` and `"a"`, `MinString` reports `("a", true)`
although `"" < "a"`; on the list holding only the key `""` (present — `Search`
finds it), both `MinString` and `MaxString` report `("", false)`, i.e. "no
string key found".  The claim is refuted by the code: this is a code bug. -/
theorem C9_empty_string_key_lost :
    cexStrList.keysAtLevel 0 = some [Key.KStr "", Key.KStr "a"] ∧
    strLt "" "a" = true ∧
    cexStrList.MinString = some ("a", true) ∧
    cexStrSingleton.keysAtLevel 0 = some [Key.KStr ""] ∧
    cexStrSingleton.Search (some (Key.KStr "")) = some (some 1, none) ∧
    cexStrSingleton.MinString = some ("", false) ∧
    cexStrSingleton.MaxString = some ("", false) := by
  refine ⟨by decide, by decide, by decide, by decide, by decide, by decide, by decide⟩

/-- C10: the comparator returns 0 on any mismatched or unsupported pairing of
dynamic key types, so such keys are treated as equal rather than reported as
errors: on a list whose first node's key has a different dynamic type than the
argument key, `Search` returns that first node's value, `Insert` overwrites
its value in place (no new node, length unchanged), and `Delete` unlinks it
(length decremented) — all without any error. -/
theorem C10_mismatch_equal :
    (∀ a b : Key, a.typeOf ≠ b.typeOf → cmpKey a b = 0) ∧
    (∀ a b : Key, a.typeOf = KType.kOther → cmpKey a b = 0) ∧
    (∀ (s : SkipList) (e0 : Entry) (rest : List Entry) (k : Key) (lvl : Nat)
      (v : Val),
      InvWith s (e0 :: rest) → e0.key.typeOf ≠ k.typeOf →
      s.Search (some k) = some (some e0.value, none) ∧
      (∃ s1, s.Insert lvl (some k) v = some (s1, none) ∧
        InvWith s1 ({ e0 with value := v } :: rest) ∧ s1.length = s.length) ∧
      (∃ s2, s.Delete (some k) = some (s2, none) ∧ InvWith s2 rest ∧
        s2.length = s.length - 1)) := by
  refine ⟨fun a b h => cmpKey_mismatch h, fun a b h => cmpKey_other_left h b, ?_⟩
  intro s e0 rest k lvl v hinv hmt
  have h0 : cmpKey e0.key k = 0 := cmpKey_mismatch hmt
  have hp : ltKeyB k e0 = false := by
    simp only [ltKeyB, h0]
    rfl
  have hdr : (e0 :: rest).dropWhile (ltKeyB k) = e0 :: rest := by
    rw [List.dropWhile_cons, hp]
    simp
  have htk : (e0 :: rest).takeWhile (ltKeyB k) = [] := by
    rw [List.takeWhile_cons, hp]
    simp
  refine ⟨?_, ?_, ?_⟩
  · rw [Search_spec hinv k]
    simp only [hdr]
    rw [if_pos h0]
  · obtain ⟨s1, hins, hinv1, -, hlen, -, -, -⟩ := Insert_upsert hinv hdr h0 lvl v
    rw [htk, List.nil_append] at hinv1
    exact ⟨s1, hins, hinv1, hlen⟩
  · obtain ⟨s2, hdel, hinv2, hlen, -, -, -, -⟩ := Delete_found hinv hdr h0
    rw [htk, List.nil_append] at hinv2
    exact ⟨s2, hdel, hinv2, hlen⟩

/-- C2: every list built from a fresh one by a sequence of `Insert` (with its
sampled level in `randomLevel`'s range), `Delete` and `Clear` calls that
complete satisfies the structural invariants: at every level the keys linked
via `forward[i]` strictly increase under the comparator, no two live nodes
share a key (the bottom-level key list has no duplicates), and inserting a key
that is already present overwrites its value without creating a new node (heap
and length unchanged). -/
theorem C2_structural_invariants (kt : KType) (ops : List Op) (s1 : SkipList)
    (hwf : ∀ o ∈ ops, ∀ lvl k v, o = Op.ins lvl k v → randomLevelRange lvl)
    (hrun : runOps (NewSkipList kt) ops = some s1) :
    (∀ i ks, s1.keysAtLevel i = some ks →
      List.Chain' (fun a b => cmpKey a b < 0) ks) ∧
    (∀ ks, s1.keysAtLevel 0 = some ks → ks.Nodup) ∧
    (∀ (k : Key) (v0 : Val) (lvl : Nat) (v : Val),
      s1.Search (some k) = some (some v0, none) →
      ∃ s2, s1.Insert lvl (some k) v = some (s2, none) ∧
        s2.length = s1.length ∧ s2.heap.length = s1.heap.length) := by
  obtain ⟨es, hes⟩ := runOps_inv ops _ s1 ⟨[], inv_new kt⟩ hwf hrun
  refine ⟨fun i ks h => inv_level_sorted hes i ks h,
    fun ks h => inv_keys_nodup hes h, ?_⟩
  intro k v0 lvl v hsr
  rw [Search_spec hes k] at hsr
  cases hdr : es.dropWhile (ltKeyB k) with
  | nil =>
    simp only [hdr] at hsr
    simp at hsr
  | cons e0 rt =>
    simp only [hdr] at hsr
    by_cases h0 : cmpKey e0.key k = 0
    · obtain ⟨s2, hins, -, hheap, hlen, -, -, -⟩ := Insert_upsert hes hdr h0 lvl v
      exact ⟨s2, hins, hlen, hheap⟩
    · rw [if_neg h0] at hsr
      simp at hsr

theorem C2_structural_invariants_witness :
    runOps (NewSkipList KType.kInt) [Op.ins 1 (Key.KInt 1) 10] = some cexIntList ∧
    ([Key.KInt 1] : List Key).Nodup := by
  have hwf : ∀ o ∈ [Op.ins 1 (Key.KInt 1) 10], ∀ lvl k v,
      o = Op.ins lvl k v → randomLevelRange lvl := by
    intro o ho lvl k v heq
    rw [List.mem_singleton] at ho
    subst ho
    injection heq with h1 h2 h3
    subst h1
    exact randomLevelRange_one
  have hrun : runOps (NewSkipList KType.kInt) [Op.ins 1 (Key.KInt 1) 10] =
      some cexIntList := by decide
  exact ⟨hrun,
    (C2_structural_invariants KType.kInt _ _ hwf hrun).2.1 [Key.KInt 1] (by decide)⟩

/-- C4 (corrected): the nil-key clause holds — `Insert`, `Search` and `Delete`
return `NilKey` exactly on a nil key argument, leaving the list unchanged —
and erroring calls leave the state unchanged; but `NotFound` does NOT mean the
key is absent from the structure: because the comparator treats mismatched
dynamic types as equal, a `Search`/`Delete` for a never-inserted key of the
wrong type finds a node (see the counterexample).  The correct
characterization is comparator-relative: `Search`/`Delete` on a non-nil key
return `NotFound` exactly when no stored key compares equal to it, and a
`Delete` that returns `NotFound` returns the list unchanged. -/
theorem C4_error_semantics {s : SkipList} {es : List Entry} (hinv : InvWith s es) :
    s.Search none = some (none, some SLErr.nilKey) ∧
    s.Delete none = some (s, some SLErr.nilKey) ∧
    (∀ lvl v, s.Insert lvl none v = some (s, some SLErr.nilKey)) ∧
    ∀ k : Key,
      (s.Search (some k) = some (none, some SLErr.notFound) ↔
        ∀ e ∈ es, cmpKey e.key k ≠ 0) ∧
      (s.Delete (some k) = some (s, some SLErr.notFound) ↔
        ∀ e ∈ es, cmpKey e.key k ≠ 0) := by
  refine ⟨rfl, rfl, fun lvl v => rfl, ?_⟩
  intro k
  constructor
  · constructor
    · intro hs e he h0
      obtain ⟨e0, rt, hdr, h00⟩ := compare_present_head hinv.sorted he h0
      rw [Search_spec hinv k] at hs
      simp only [hdr] at hs
      rw [if_pos h00] at hs
      simp at hs
    · intro habs
      exact Search_absent hinv habs
  · constructor
    · intro hs e he h0
      obtain ⟨e0, rt, hdr, h00⟩ := compare_present_head hinv.sorted he h0
      obtain ⟨s1, hdel, -, -, -, -, -, -⟩ := Delete_found hinv hdr h00
      rw [hdel] at hs
      simp at hs
    · intro habs
      refine Delete_notfound hinv ?_
      intro e0 he0
      refine habs e0 ?_
      refine (List.dropWhile_sublist (ltKeyB k)).mem ?_
      exact List.mem_of_mem_head? he0

theorem C4_notfound_counterexample :
    cexIntList.keysAtLevel 0 = some [Key.KInt 1] ∧
    cexIntList.Search (some (Key.KStr "a")) = some (some 10, none) := by
  exact ⟨by decide, by decide⟩

theorem C4_error_semantics_witness :
    cexIntList.Search none = some (none, some SLErr.nilKey) ∧
    cexIntList.Delete none = some (cexIntList, some SLErr.nilKey) ∧
    (∀ lvl v, cexIntList.Insert lvl none v = some (cexIntList, some SLErr.nilKey)) ∧
    ∀ k : Key,
      (cexIntList.Search (some k) = some (none, some SLErr.notFound) ↔
        ∀ e ∈ [(⟨1, Key.KInt 1, 10⟩ : Entry)], cmpKey e.key k ≠ 0) ∧
      (cexIntList.Delete (some k) = some (cexIntList, some SLErr.notFound) ↔
        ∀ e ∈ [(⟨1, Key.KInt 1, 10⟩ : Entry)], cmpKey e.key k ≠ 0) :=
  C4_error_semantics inv_cexIntList

/-- C5: deleting a key that is present succeeds with no error, decrements
`Length()` by exactly 1 (unlinking the node at each level whose recorded
predecessor points to it and then shrinking the level, per the modelled
`Delete`), and afterwards a `Search` for that key returns `NotFound`. -/
theorem C5_delete_present {s : SkipList} {es : List Entry} (hinv : InvWith s es)
    {e : Entry} (he : e ∈ es) :
    ∃ s1, s.Delete (some e.key) = some (s1, none) ∧
      s1.Length = s.Length - 1 ∧ s1.level = 1 ∧
      s1.Search (some e.key) = some (none, some SLErr.notFound) := by
  obtain ⟨rtail, hdr⟩ := present_head_eq hinv.sorted he rfl
  obtain ⟨s1, hdel, hinv1, hlen, hlvl, -, -, -⟩ :=
    Delete_found hinv hdr (cmpKey_self e.key)
  refine ⟨s1, hdel, hlen, hlvl, ?_⟩
  refine Search_absent hinv1 ?_
  intro e1 he1 hc
  rcases List.mem_append.mp he1 with h | h
  · have hlt := List.mem_takeWhile_imp h
    simp only [ltKeyB, decide_eq_true_eq] at hlt
    omega
  · have hsuf : (e :: rtail) <:+ es := by
      rw [← hdr]
      exact List.dropWhile_suffix _
    have hch : List.Chain' entLt (e :: rtail) := hinv.sorted.suffix hsuf
    have hlt := (List.pairwise_cons.mp (chain'_pairwise_entLt hch)).1 e1 h
    unfold entLt at hlt
    rw [cmpKey_neg e.key e1.key, hc] at hlt
    exact absurd hlt (by decide)

theorem C5_delete_present_witness :
    ∃ s1, cexIntList.Delete (some (Key.KInt 1)) = some (s1, none) ∧
      s1.Length = cexIntList.Length - 1 ∧ s1.level = 1 ∧
      s1.Search (some (Key.KInt 1)) = some (none, some SLErr.notFound) :=
  C5_delete_present inv_cexIntList (List.mem_singleton.mpr rfl)

/-- C6: under the representation invariant, a full iteration from a fresh
`Iterator()` cursor yields exactly the stored keys in strictly ascending
comparator order, the number of successful `Next()` calls (one key is
collected per `Next()` that returns true) equals `Length()`, and
`Key()`/`Value()` return the nil-equivalent while the cursor is at the head
and the current node's key/value once it is off the head. -/
theorem C6_iterator_ascending {s : SkipList} {es : List Entry}
    (hinv : InvWith s es) :
    ∃ ks : List Key,
      s.iterate = some (ks.map some) ∧
      ks.length = s.Length ∧
      List.Chain' (fun a b => cmpKey a b < 0) ks ∧
      SkipListIterator.Key s s.Iterator = some none ∧
      SkipListIterator.Value s s.Iterator = some none ∧
      (∀ (it : SkipListIterator) (n : Node), it.isHead = false →
        s.heap[it.node]? = some n →
        SkipListIterator.Key s it = some n.key ∧
        SkipListIterator.Value s it = some n.value) := by
  refine ⟨es.map Entry.key, ?_, ?_, ?_, rfl, rfl,
    fun it n hh hn => iterator_key_off_head hh hn⟩
  · rw [iterate_spec hinv, List.map_map]
    rfl
  · rw [List.length_map]
    exact hinv.length_eq.symm
  · rw [List.chain'_map]
    exact hinv.sorted

theorem C6_iterator_ascending_witness :
    ∃ ks : List Key,
      cexStrList.iterate = some (ks.map some) ∧
      ks.length = cexStrList.Length ∧
      List.Chain' (fun a b => cmpKey a b < 0) ks ∧
      SkipListIterator.Key cexStrList cexStrList.Iterator = some none ∧
      SkipListIterator.Value cexStrList cexStrList.Iterator = some none ∧
      (∀ (it : SkipListIterator) (n : Node), it.isHead = false →
        cexStrList.heap[it.node]? = some n →
        SkipListIterator.Key cexStrList it = some n.key ∧
        SkipListIterator.Value cexStrList it = some n.value) :=
  C6_iterator_ascending inv_cexStrList

theorem insert_result_present {s : SkipList} {es : List Entry} (hinv : InvWith s es)
    {k : Key} {v1 : Val} {lvl1 : Nat} (hlvl1 : randomLevelRange lvl1)
    {s1 : SkipList} (h1 : s.Insert lvl1 (some k) v1 = some (s1, none)) :
    ∃ (pre : List Entry) (e0 : Entry) (rt : List Entry),
      InvWith s1 (pre ++ e0 :: rt) ∧
      (∀ e ∈ pre, ltKeyB k e = true) ∧
      cmpKey e0.key k = 0 := by
  cases hdr : es.dropWhile (ltKeyB k) with
  | cons e0 rt =>
    by_cases h0 : cmpKey e0.key k = 0
    · obtain ⟨s1', hins, hinv1, -, -, -, -, -⟩ := Insert_upsert hinv hdr h0 lvl1 v1
      rw [h1] at hins
      simp only [Option.some.injEq, Prod.mk.injEq, and_true] at hins
      rw [← hins] at hinv1
      refine ⟨es.takeWhile (ltKeyB k), { e0 with value := v1 }, rt, hinv1, ?_, h0⟩
      intro e he
      exact List.mem_takeWhile_imp he
    · have hno : ∀ x ∈ (es.dropWhile (ltKeyB k)).head?, cmpKey x.key k ≠ 0 := by
        intro x hx
        rw [hdr] at hx
        have hxe : x = e0 := Eq.symm (by simpa using hx)
        rw [hxe]
        exact h0
      rcases Nat.lt_or_ge lvl1 2 with hl | hl
      · obtain ⟨ha, -⟩ := hlvl1
        have hl1 : lvl1 = 1 := by omega
        subst hl1
        obtain ⟨s1', hins, hinv1, -, -, -, -, -⟩ := Insert_new hinv v1 hno
        rw [h1] at hins
        simp only [Option.some.injEq, Prod.mk.injEq, and_true] at hins
        rw [← hins] at hinv1
        refine ⟨es.takeWhile (ltKeyB k), ⟨s.heap.length, k, v1⟩,
          es.dropWhile (ltKeyB k), hinv1, ?_, cmpKey_self k⟩
        intro e he
        exact List.mem_takeWhile_imp he
      · rw [Insert_panic hinv v1 hno hl] at h1
        exact Option.noConfusion h1
  | nil =>
    have hno : ∀ x ∈ (es.dropWhile (ltKeyB k)).head?, cmpKey x.key k ≠ 0 := by
      intro x hx
      rw [hdr] at hx
      exact absurd hx (by simp)
    rcases Nat.lt_or_ge lvl1 2 with hl | hl
    · obtain ⟨ha, -⟩ := hlvl1
      have hl1 : lvl1 = 1 := by omega
      subst hl1
      obtain ⟨s1', hins, hinv1, -, -, -, -, -⟩ := Insert_new hinv v1 hno
      rw [h1] at hins
      simp only [Option.some.injEq, Prod.mk.injEq, and_true] at hins
      rw [← hins] at hinv1
      refine ⟨es.takeWhile (ltKeyB k), ⟨s.heap.length, k, v1⟩,
        es.dropWhile (ltKeyB k), hinv1, ?_, cmpKey_self k⟩
      intro e he
      exact List.mem_takeWhile_imp he
    · rw [Insert_panic hinv v1 hno hl] at h1
      exact Option.noConfusion h1

/-- C3: inserting a key that is already present (here: just inserted by a
completed `Insert` on an invariant-satisfying list) with a new value
overwrites the stored value in place: the second `Insert` succeeds at any
sampled level, `Length()` and the node count (heap size) are unchanged, and a
subsequent `Search` returns the latest value. -/
theorem C3_upsert_overwrites {s : SkipList} {es : List Entry} (hinv : InvWith s es)
    (k : Key) (v1 v2 : Val) {lvl1 : Nat} (hlvl1 : randomLevelRange lvl1)
    (lvl2 : Nat) {s1 : SkipList} (h1 : s.Insert lvl1 (some k) v1 = some (s1, none)) :
    ∃ s2, s1.Insert lvl2 (some k) v2 = some (s2, none) ∧
      s2.Length = s1.Length ∧ s2.heap.length = s1.heap.length ∧
      s2.Search (some k) = some (some v2, none) := by
  obtain ⟨pre, e0, rt, hinv1, hpre, h0⟩ := insert_result_present hinv hlvl1 h1
  have hhead : ∀ x ∈ (e0 :: rt).head?, ltKeyB k x = false := by
    intro x hx
    have hxe : x = e0 := Eq.symm (by simpa using hx)
    rw [hxe]
    simp only [ltKeyB, h0]
    rfl
  have hdr1 : (pre ++ e0 :: rt).dropWhile (ltKeyB k) = e0 :: rt :=
    dropWhile_append_head pre hpre hhead
  obtain ⟨s2, hins2, hinv2, hheap2, hlen2, -, -, -⟩ :=
    Insert_upsert hinv1 hdr1 h0 lvl2 v2
  refine ⟨s2, hins2, hlen2, hheap2, ?_⟩
  have h0' : cmpKey ({ e0 with value := v2 } : Entry).key k = 0 := h0
  have hhead2 : ∀ x ∈ (({ e0 with value := v2 } : Entry) :: rt).head?,
      ltKeyB k x = false := by
    intro x hx
    have hxe : x = { e0 with value := v2 } := Eq.symm (by simpa using hx)
    rw [hxe]
    simp only [ltKeyB, h0']
    rfl
  have hpre2 : ∀ e ∈ (pre ++ e0 :: rt).takeWhile (ltKeyB k), ltKeyB k e = true := by
    intro e he
    exact List.mem_takeWhile_imp he
  have hdr2 : ((pre ++ e0 :: rt).takeWhile (ltKeyB k) ++
      ({ e0 with value := v2 } : Entry) :: rt).dropWhile (ltKeyB k) =
      ({ e0 with value := v2 } : Entry) :: rt :=
    dropWhile_append_head _ hpre2 hhead2
  rw [Search_spec hinv2 k]
  simp only [hdr2]
  rw [if_pos h0']

theorem C3_upsert_overwrites_witness :
    (NewSkipList KType.kInt).Insert 1 (some (Key.KInt 1)) 10 =
      some (cexIntList, none) ∧
    ∃ s2, cexIntList.Insert 5 (some (Key.KInt 1)) 20 = some (s2, none) ∧
      s2.Length = cexIntList.Length ∧ s2.heap.length = cexIntList.heap.length ∧
      s2.Search (some (Key.KInt 1)) = some (some 20, none) := by
  have h1 : (NewSkipList KType.kInt).Insert 1 (some (Key.KInt 1)) 10 =
      some (cexIntList, none) := by decide
  exact ⟨h1, C3_upsert_overwrites (inv_new KType.kInt) (Key.KInt 1) 10 20
    randomLevelRange_one 5 h1⟩
